import Mathlib

/-!
Verification of the backport cherry-pick engine
(`assets/backport/github/github.go`).

The Go code drives a remote commit-graph API (GitHub).  We model the
remote as an explicit state (`Remote`): an association list of commits
keyed by Nat, a table of refs, a table of merge conflicts, a fresh-Nat
counter, and an append-only log of the primitive calls issued.  SHAs
are opaque content hashes; we model them as naturals allocated by the
counter so that freshly created objects have identifiers distinct from
all pre-existing ones (SHAs are plain naturals in the embedding).  Nullable pointer fields of the go-github
structs (`*string`, `*Tree`, ...) are modelled as `Option`; a nil
dereference of the Go code is modelled by the `Res.panicked` outcome,
an index out of range by the `Option`-returning list index.  Fallible
calls return `Res`, mirroring the `(value, error)` returns of Go, and
`trace.Wrap` is the `GoErr.wrap` constructor.
-/

namespace Backport

/-- Model of `go_github.Tree`: only the SHA field is relevant to the engine. -/
structure GTree where
  sha : Option Nat
deriving Repr, DecidableEq

/-- Model of `go_github.Commit`: nullable SHA, message and tree, plus the
list of parent commits (`Parents []*Commit`). -/
inductive GCommit : Type where
  | mk : Option Nat → Option String → Option GTree → List GCommit → GCommit

def GCommit.sha : GCommit → Option Nat
  | .mk s _ _ _ => s

def GCommit.message : GCommit → Option String
  | .mk _ m _ _ => m

def GCommit.tree : GCommit → Option GTree
  | .mk _ _ t _ => t

def GCommit.parents : GCommit → List GCommit
  | .mk _ _ _ p => p

/-- `GetTree` accessor of go-github: returns the (possibly nil) tree pointer. -/
def GCommit.getTree (c : GCommit) : Option GTree := c.tree

/-- Model of `go_github.RepositoryCommit` (only the SHA is used by the code). -/
structure RepoCommit where
  sha : Option Nat
deriving Repr, DecidableEq

/-- `GetSHA` accessor: the zero value stands for the empty string Go returns
for a nil field. -/
def RepoCommit.getSHA (rc : RepoCommit) : Nat := rc.sha.getD 0

/-- Model of `go_github.Branch`: nullable name, head commit summary. -/
structure GBranch where
  name : Option String
  commit : RepoCommit
deriving Repr, DecidableEq

/-- A commit record as stored by the remote: message, tree SHA, parent SHAs. -/
structure CommitData where
  message : String
  tree : Nat
  parents : List Nat
deriving Repr, DecidableEq

/-- Errors of the Go code: `trace.NotFound`, the remote merge-conflict
response, remote request validation failures, `trace.Errorf`, and
`trace.Wrap`. -/
inductive GoErr : Type where
  | notFound : String → GoErr
  | conflict : GoErr
  | badRequest : String → GoErr
  | errorf : String → GoErr
  | wrap : GoErr → GoErr
deriving Repr, DecidableEq

/-- Outcome of a Go call: a value, an error return, or a runtime panic
(nil dereference / index out of range). -/
inductive Res (α : Type) : Type where
  | ok : α → Res α
  | err : GoErr → Res α
  | panicked : String → Res α
deriving Repr, DecidableEq

/-- Primitive remote calls, as observed on the wire. -/
inductive Event : Type where
  | evGetCommit : Nat → Event
  | evCreateCommit : String → Nat → Nat → Nat → Event
  | evMerge : String → Nat → Event
  | evUpdateRef : String → Nat → Event
  | evDeleteRef : String → Event
  | evCompare : String → String → Event
  | evListCommits : String → Nat → Event
deriving Repr, DecidableEq

/-- State of the remote repository, plus the log of issued calls. -/
structure Remote where
  commits : List (Nat × CommitData)
  refs : List (String × Nat)
  conflicts : List (Nat × Nat)
  fresh : Nat
  log : List Event
deriving Repr, DecidableEq

/-- First-match association-list lookup. -/
def assoc {α β : Type} [DecidableEq α] (k : α) : List (α × β) → Option β
  | [] => none
  | (k2, v) :: rest => if k = k2 then some v else assoc k rest

/-- Replace the value of the first entry with the given key. -/
def setAssoc {α β : Type} [DecidableEq α] (k : α) (v : β) : List (α × β) → List (α × β)
  | [] => []
  | (k2, v2) :: rest => if k = k2 then (k2, v) :: rest else (k2, v2) :: setAssoc k v rest

/-- Remove the first entry with the given key. -/
def removeAssoc {α β : Type} [DecidableEq α] (k : α) : List (α × β) → List (α × β)
  | [] => []
  | (k2, v2) :: rest => if k = k2 then rest else (k2, v2) :: removeAssoc k rest

/-- `branchRefPrefix` constant of the source: `"refs/heads/"`. -/
def branchRefHeads : String := "refs/heads/"

/-- `perPage` constant of the source. -/
def perPage : Nat := 100

/-- First-parent walk of the commit graph from a SHA, newest first, with
fuel bounding the depth.  A missing commit ends the walk. -/
def chainFrom (store : List (Nat × CommitData)) : Nat → Nat → List Nat
  | 0, _ => []
  | fuel + 1, sha =>
    match assoc sha store with
    | none => []
    | some d =>
      sha :: (match d.parents with
        | [] => []
        | p :: _ => chainFrom store fuel p)

/-- Reachability through all parents, with fuel bounding the depth. -/
def reachesB (store : List (Nat × CommitData)) : Nat → Nat → Nat → Bool
  | 0, a, b => decide (a = b)
  | fuel + 1, a, b =>
    decide (a = b) ||
      (match assoc a store with
      | none => false
      | some d => d.parents.any (fun p => reachesB store fuel p b))

/-! ## Remote primitives

Each primitive logs its call and acts on the state.  They model the
GitHub endpoints the Go client wraps. -/

/-- `Git.GetCommit`. -/
def remoteGetCommit (s : Remote) (sha : Nat) : Res CommitData × Remote :=
  let s1 : Remote := { s with log := s.log ++ [Event.evGetCommit sha] }
  match assoc sha s1.commits with
  | some d => (Res.ok d, s1)
  | none => (Res.err (GoErr.notFound ("commit not found")), s1)

/-- `Git.CreateCommit`: requires a tree SHA and a parent SHA, allocates a
fresh commit Nat.  A request missing the tree or parent Nat is rejected
by the remote. -/
def remoteCreateCommit (s : Remote) (message : String) (tree : Option GTree)
    (parent : GCommit) : Res Nat × Remote :=
  match tree.bind GTree.sha, parent.sha with
  | some t, some p =>
    let sha := s.fresh
    (Res.ok sha,
      { s with
        commits := (sha, ⟨message, t, [p]⟩) :: s.commits
        fresh := s.fresh + 1
        log := s.log ++ [Event.evCreateCommit message t p sha] })
  | _, _ => (Res.err (GoErr.badRequest ("commit request missing tree or parent")), s)

/-- `Repositories.Merge`: resolves the base branch ref, fails on a
configured conflict, otherwise creates a two-parent merge commit with a
fresh result tree and advances the base branch ref to it. -/
def remoteMerge (s : Remote) (base : String) (headSha : Nat) : Res Nat × Remote :=
  let s1 : Remote := { s with log := s.log ++ [Event.evMerge base headSha] }
  match assoc (branchRefHeads ++ base) s1.refs with
  | none => (Res.err (GoErr.notFound ("base branch not found")), s1)
  | some baseSha =>
    if (baseSha, headSha) ∈ s1.conflicts then
      (Res.err GoErr.conflict, s1)
    else
      let mergeSha := s1.fresh
      let treeSha := s1.fresh + 1
      (Res.ok mergeSha,
        { s1 with
          commits := (mergeSha, ⟨"merge", treeSha, [baseSha, headSha]⟩) :: s1.commits
          refs := setAssoc (branchRefHeads ++ base) mergeSha s1.refs
          fresh := s1.fresh + 2 })

/-- `Git.UpdateRef` (force): fails when the ref does not exist. -/
def remoteUpdateRef (s : Remote) (ref : String) (sha : Nat) : Res Unit × Remote :=
  let s1 : Remote := { s with log := s.log ++ [Event.evUpdateRef ref sha] }
  match assoc ref s1.refs with
  | none => (Res.err (GoErr.notFound ("ref not found")), s1)
  | some _ => (Res.ok (), { s1 with refs := setAssoc ref sha s1.refs })

/-- `Git.DeleteRef`: fails when the ref does not exist. -/
def remoteDeleteRef (s : Remote) (ref : String) : Res Unit × Remote :=
  let s1 : Remote := { s with log := s.log ++ [Event.evDeleteRef ref] }
  match assoc ref s1.refs with
  | none => (Res.err (GoErr.notFound ("ref not found")), s1)
  | some _ => (Res.ok (), { s1 with refs := removeAssoc ref s1.refs })

/-- `Repositories.CompareCommits base head`: commits reachable from the
head branch but not from the base branch, oldest first (the GitHub
compare endpoint lists them in chronological order). -/
def remoteCompare (s : Remote) (base head : String) : Res (List RepoCommit) × Remote :=
  let s1 : Remote := { s with log := s.log ++ [Event.evCompare base head] }
  match assoc (branchRefHeads ++ base) s1.refs, assoc (branchRefHeads ++ head) s1.refs with
  | some b, some h =>
    let bc := chainFrom s1.commits s1.commits.length b
    let hc := chainFrom s1.commits s1.commits.length h
    (Res.ok (((hc.filter (fun x => x ∉ bc)).reverse).map (fun x => RepoCommit.mk (some x))), s1)
  | _, _ => (Res.err (GoErr.notFound ("branch not found")), s1)

/-- `Repositories.ListCommits` with `ListOptions{Page, PerPage}`: the
commits reachable from the named branch head, newest first (the GitHub
list-commits endpoint returns reverse chronological order), served in
pages of `perPage`; a zero next page marks the last page. -/
def remoteListCommits (s : Remote) (branch : String) (page : Nat) :
    Res (List RepoCommit × Nat) × Remote :=
  let s1 : Remote := { s with log := s.log ++ [Event.evListCommits branch page] }
  match assoc (branchRefHeads ++ branch) s1.refs with
  | none => (Res.err (GoErr.notFound ("branch not found")), s1)
  | some headSha =>
    let allc := (chainFrom s1.commits s1.commits.length headSha).map
      (fun x => RepoCommit.mk (some x))
    let q := max 1 page
    let chunk := (allc.drop ((q - 1) * perPage)).take perPage
    let next := if q * perPage < allc.length then q + 1 else 0
    (Res.ok (chunk, next), s1)

/-! ## Client helpers (`github.go`)

The thin wrappers of `Client` around the remote primitives, each
wrapping errors with `trace.Wrap`.  The `organization` and `repository`
arguments are kept for fidelity; the modelled remote state is the state
of that one repository. -/

/-- The `go_github.Commit` value returned by `Git.GetCommit`: parents are
returned as shallow commit records carrying only their Nat. -/
def commitOfData (sha : Nat) (d : CommitData) : GCommit :=
  GCommit.mk (some sha) (some d.message) (some (GTree.mk (some d.tree)))
    (d.parents.map (fun p => GCommit.mk (some p) none none []))

/-- `getCommit` of the source: `Git.GetCommit` plus `trace.Wrap`. -/
def getCommit (s : Remote) (organization repository : String) (sha : Nat) :
    Res GCommit × Remote :=
  match remoteGetCommit s sha with
  | (Res.ok d, s1) => (Res.ok (commitOfData sha d), s1)
  | (Res.err e, s1) => (Res.err (GoErr.wrap e), s1)
  | (Res.panicked m, s1) => (Res.panicked m, s1)

/-- `createCommit` of the source: builds a commit with the given message,
tree and single parent, returns the Nat of the created commit. -/
def createCommit (s : Remote) (organization repository : String)
    (commitMessage : String) (tree : Option GTree) (parent : GCommit) :
    Res Nat × Remote :=
  match remoteCreateCommit s commitMessage tree parent with
  | (Res.ok sha, s1) => (Res.ok sha, s1)
  | (Res.err e, s1) => (Res.err (GoErr.wrap e), s1)
  | (Res.panicked m, s1) => (Res.panicked m, s1)

/-- `updateBranch` of the source: updates `refs/heads/<branchName>`. -/
def updateBranch (s : Remote) (organization repository : String)
    (branchName : String) (sha : Nat) : Res Unit × Remote :=
  match remoteUpdateRef s (branchRefHeads ++ branchName) sha with
  | (Res.ok _, s1) => (Res.ok (), s1)
  | (Res.err e, s1) => (Res.err (GoErr.wrap e), s1)
  | (Res.panicked m, s1) => (Res.panicked m, s1)

/-- `merge` of the source: `Repositories.Merge` with the branch as base,
then a `getCommit` of the merge result. -/
def merge (s : Remote) (organization repository : String)
    (base : String) (headCommitSHA : Nat) : Res GCommit × Remote :=
  match remoteMerge s base headCommitSHA with
  | (Res.err e, s1) => (Res.err (GoErr.wrap e), s1)
  | (Res.panicked m, s1) => (Res.panicked m, s1)
  | (Res.ok mergeSha, s1) =>
    match getCommit s1 organization repository mergeSha with
    | (Res.ok c, s2) => (Res.ok c, s2)
    | (Res.err e, s2) => (Res.err (GoErr.wrap e), s2)
    | (Res.panicked m, s2) => (Res.panicked m, s2)

/-- `deleteBranch` of the source: `Git.DeleteRef` on `refs/heads/<name>`. -/
def deleteBranch (s : Remote) (organization repository : String)
    (branchName : String) : Res Unit × Remote :=
  match remoteDeleteRef s (branchRefHeads ++ branchName) with
  | (Res.ok _, s1) => (Res.ok (), s1)
  | (Res.err e, s1) => (Res.err (GoErr.wrap e), s1)
  | (Res.panicked m, s1) => (Res.panicked m, s1)

/-! ## The cherry-pick engine -/

/-- `createSiblingCommit`: a commit with the tree of the branch head and
the cherry-pick parent as parent, to which the branch is then pointed. -/
def createSiblingCommit (s : Remote) (organization repository : String)
    (branchName : String) (branchHeadCommit cherryParent : GCommit) :
    Res Unit × Remote :=
  let tree := branchHeadCommit.getTree
  match createCommit s organization repository ("temp") tree cherryParent with
  | (Res.err e, s1) => (Res.err (GoErr.wrap e), s1)
  | (Res.panicked m, s1) => (Res.panicked m, s1)
  | (Res.ok commitSHA, s1) =>
    match updateBranch s1 organization repository branchName commitSHA with
    | (Res.ok _, s2) => (Res.ok (), s2)
    | (Res.err e, s2) => (Res.err (GoErr.wrap e), s2)
    | (Res.panicked m, s2) => (Res.panicked m, s2)

/-- `cherryPickCommit`: one replay step.  `cherryCommit.Parents[0]` is the
Go index access, modelled by the optional index; a nil dereference of
`Nat` or `Message` is a panic. -/
def cherryPickCommit (s : Remote) (organization repository : String)
    (branchName : String) (cherryCommit headBranchCommit : GCommit) :
    Res (Option GTree × Nat) × Remote :=
  match cherryCommit.parents[0]? with
  | none => (Res.panicked ("runtime error: index out of range"), s)
  | some cherryParent =>
    match createSiblingCommit s organization repository branchName
        headBranchCommit cherryParent with
    | (Res.err e, s1) => (Res.err (GoErr.wrap e), s1)
    | (Res.panicked m, s1) => (Res.panicked m, s1)
    | (Res.ok _, s1) =>
      match cherryCommit.sha with
      | none => (Res.panicked ("runtime error: nil pointer dereference"), s1)
      | some cherrySha =>
        match merge s1 organization repository branchName cherrySha with
        | (Res.err e, s2) => (Res.err (GoErr.wrap e), s2)
        | (Res.panicked m, s2) => (Res.panicked m, s2)
        | (Res.ok mergeCommit, s2) =>
          let mergeTree := mergeCommit.getTree
          match headBranchCommit.sha with
          | none => (Res.panicked ("runtime error: nil pointer dereference"), s2)
          | some headSha =>
            match getCommit s2 organization repository headSha with
            | (Res.err e, s3) => (Res.err (GoErr.wrap e), s3)
            | (Res.panicked m, s3) => (Res.panicked m, s3)
            | (Res.ok updatedCommit, s3) =>
              match cherryCommit.message with
              | none => (Res.panicked ("runtime error: nil pointer dereference"), s3)
              | some msg =>
                match createCommit s3 organization repository msg mergeTree
                    updatedCommit with
                | (Res.err e, s4) => (Res.err (GoErr.wrap e), s4)
                | (Res.panicked m, s4) => (Res.panicked m, s4)
                | (Res.ok sha, s4) =>
                  match updateBranch s4 organization repository branchName sha with
                  | (Res.err e, s5) => (Res.err (GoErr.wrap e), s5)
                  | (Res.panicked m, s5) => (Res.panicked m, s5)
                  | (Res.ok _, s5) => (Res.ok (mergeTree, sha), s5)

/-- The threading of the loop of `CherryPickCommitsOnBranch`: the Go code
assigns `headCommit.Nat = &sha` and `headCommit.Tree = tree` after each
step. -/
def GCommit.setShaTree (c : GCommit) (sha : Nat) (tree : Option GTree) : GCommit :=
  GCommit.mk (some sha) c.message tree c.parents

/-- The loop of `CherryPickCommitsOnBranch` (lines 57 to 65): replays the
commits in order; on an error return the deferred `deleteBranch` runs
(its own error discarded) and the wrapped step error is returned; a
panic propagates with no deferred call registered. -/
def cherryPickLoop (s : Remote) (organization repository : String)
    (branchName : String) (commits : List GCommit) (headCommit : GCommit) :
    Res GCommit × Remote :=
  match commits with
  | [] => (Res.ok headCommit, s)
  | c :: rest =>
    match cherryPickCommit s organization repository branchName c headCommit with
    | (Res.panicked m, s1) => (Res.panicked m, s1)
    | (Res.err e, s1) =>
      let s2 := (deleteBranch s1 organization repository branchName).2
      (Res.err (GoErr.wrap e), s2)
    | (Res.ok (tree, sha), s1) =>
      cherryPickLoop s1 organization repository branchName rest
        (headCommit.setShaTree sha tree)

/-- `CherryPickCommitsOnBranch`: validates the branch name and head SHA,
reads the head commit, then replays the commit list. -/
def CherryPickCommitsOnBranch (s : Remote) (organization repository : String)
    (branch : GBranch) (commits : List GCommit) : Res Unit × Remote :=
  match branch.name with
  | none => (Res.err (GoErr.notFound ("branch name does not exist.")), s)
  | some name =>
    match branch.commit.sha with
    | none =>
      (Res.err (GoErr.notFound ("branch " ++ name ++ " HEAD does not exist.")), s)
    | some headSha =>
      match getCommit s organization repository headSha with
      | (Res.err e, s1) => (Res.err (GoErr.wrap e), s1)
      | (Res.panicked m, s1) => (Res.panicked m, s1)
      | (Res.ok headCommit, s1) =>
        match cherryPickLoop s1 organization repository name commits headCommit with
        | (Res.ok _, s2) => (Res.ok (), s2)
        | (Res.err e, s2) => (Res.err e, s2)
        | (Res.panicked m, s2) => (Res.panicked m, s2)

/-! ## The commit-set resolver -/

/-- The pagination loop of `getBranchCommits`, with fuel for the
unbounded Go `for` loop; the fuel is chosen large enough that it is
never exhausted against the modelled remote. -/
def getBranchCommitsLoop (s : Remote) (branchName : String)
    (acc : List RepoCommit) (page : Nat) : Nat → Res (List RepoCommit) × Remote
  | 0 => (Res.err (GoErr.errorf ("pagination did not terminate")), s)
  | fuel + 1 =>
    match remoteListCommits s branchName page with
    | (Res.err e, s1) => (Res.err (GoErr.wrap e), s1)
    | (Res.panicked m, s1) => (Res.panicked m, s1)
    | (Res.ok (currCommits, nextPage), s1) =>
      let acc1 := acc ++ currCommits
      if nextPage = 0 then (Res.ok acc1, s1)
      else getBranchCommitsLoop s1 branchName acc1 nextPage fuel

/-- `getBranchCommits` of the source: lists the commits of a branch,
page by page, starting from page zero. -/
def getBranchCommits (s : Remote) (organization repository : String)
    (branchName : String) : Res (List RepoCommit) × Remote :=
  getBranchCommitsLoop s branchName [] 0 (s.commits.length + 2)

/-- Inner loop of `GetBranchCommits`: scans the comparison commits for
the Nat of one listed commit; on a match, reads the full commit,
rejects it when its parent count differs from one, otherwise appends. -/
def gbcInner (s : Remote) (organization repository : String)
    (repoCommit : RepoCommit) (diffCommits : List RepoCommit)
    (acc : List GCommit) : Res (List GCommit) × Remote :=
  match diffCommits with
  | [] => (Res.ok acc, s)
  | diffCommit :: rest =>
    if diffCommit.getSHA = repoCommit.getSHA then
      match getCommit s organization repository repoCommit.getSHA with
      | (Res.err e, s1) => (Res.err (GoErr.wrap e), s1)
      | (Res.panicked m, s1) => (Res.panicked m, s1)
      | (Res.ok commit, s1) =>
        if commit.parents.length ≠ 1 then
          (Res.err (GoErr.errorf ("merge commits are not supported.")), s1)
        else
          gbcInner s1 organization repository repoCommit rest (acc ++ [commit])
    else gbcInner s organization repository repoCommit rest acc

/-- Outer loop of `GetBranchCommits` over the listed branch commits. -/
def gbcOuter (s : Remote) (organization repository : String)
    (repoCommits diffCommits : List RepoCommit) (acc : List GCommit) :
    Res (List GCommit) × Remote :=
  match repoCommits with
  | [] => (Res.ok acc, s)
  | repoCommit :: rest =>
    match gbcInner s organization repository repoCommit diffCommits acc with
    | (Res.err e, s1) => (Res.err e, s1)
    | (Res.panicked m, s1) => (Res.panicked m, s1)
    | (Res.ok acc1, s1) => gbcOuter s1 organization repository rest diffCommits acc1

/-- `GetBranchCommits`: lists the branch commits, compares the branch
against `"master"`, and returns the full commits of the listed commits
that appear in the comparison, rejecting multi-parent commits. -/
def GetBranchCommits (s : Remote) (organization repository : String)
    (branchName : String) : Res (List GCommit) × Remote :=
  match getBranchCommits s organization repository branchName with
  | (Res.err e, s1) => (Res.err (GoErr.wrap e), s1)
  | (Res.panicked m, s1) => (Res.panicked m, s1)
  | (Res.ok repoCommits, s1) =>
    match remoteCompare s1 ("master") branchName with
    | (Res.err e, s2) => (Res.err (GoErr.wrap e), s2)
    | (Res.panicked m, s2) => (Res.panicked m, s2)
    | (Res.ok comparisonCommits, s2) =>
      gbcOuter s2 organization repository repoCommits comparisonCommits []

/-! ## Association-list lemmas -/

theorem assoc_mem {α β : Type} [DecidableEq α] {k : α} {v : β} :
    ∀ {l : List (α × β)}, assoc k l = some v → (k, v) ∈ l := by
  intro l
  induction l with
  | nil => intro h; simp [assoc] at h
  | cons kv rest ih =>
    intro h
    obtain ⟨k2, v2⟩ := kv
    by_cases hk : k = k2
    · subst hk
      simp [assoc] at h
      subst h
      exact List.mem_cons_self _ _
    · simp [assoc, hk] at h
      exact List.mem_cons_of_mem _ (ih h)

theorem assoc_cons_ne {α β : Type} [DecidableEq α] {k k2 : α} (v2 : β)
    (l : List (α × β)) (h : k ≠ k2) : assoc k ((k2, v2) :: l) = assoc k l := by
  simp [assoc, h]

theorem assoc_cons_self {α β : Type} [DecidableEq α] (k : α) (v : β)
    (l : List (α × β)) : assoc k ((k, v) :: l) = some v := by
  simp [assoc]

theorem assoc_setAssoc_self {α β : Type} [DecidableEq α] {k : α} (v : β) :
    ∀ {l : List (α × β)} {w : β}, assoc k l = some w →
      assoc k (setAssoc k v l) = some v := by
  intro l
  induction l with
  | nil => intro w h; simp [assoc] at h
  | cons kv rest ih =>
    intro w h
    obtain ⟨k2, v2⟩ := kv
    by_cases hk : k = k2
    · subst hk
      simp [setAssoc, assoc]
    · simp [assoc, hk] at h
      simp [setAssoc, hk, assoc]
      exact ih h

theorem setAssoc_setAssoc {α β : Type} [DecidableEq α] (k : α) (v1 v2 : β) :
    ∀ (l : List (α × β)), setAssoc k v2 (setAssoc k v1 l) = setAssoc k v2 l := by
  intro l
  induction l with
  | nil => simp [setAssoc]
  | cons kv rest ih =>
    obtain ⟨k2, w⟩ := kv
    by_cases hk : k = k2
    · subst hk; simp [setAssoc]
    · simp [setAssoc, hk, ih]

/-! ## C10: invalid branch input leaves the state untouched -/

/-- C10: if the target branch has no name or no head-commit SHA,
CherryPickCommitsOnBranch returns a NotFound error and the remote state
is completely unchanged: no call is issued (the log is unchanged), no
commit is created, no ref is updated, and no branch deletion is
attempted. -/
theorem c10_invalid_branch_state_unchanged (s : Remote) (o r : String)
    (branch : GBranch) (commits : List GCommit)
    (h : branch.name = none ∨ branch.commit.sha = none) :
    ∃ msg, CherryPickCommitsOnBranch s o r branch commits =
      (Res.err (GoErr.notFound msg), s) := by
  rcases h with h | h
  · exact ⟨("branch name does not exist."), by simp [CherryPickCommitsOnBranch, h]⟩
  · cases hn : branch.name with
    | none =>
      exact ⟨("branch name does not exist."), by simp [CherryPickCommitsOnBranch, hn]⟩
    | some name =>
      exact ⟨("branch " ++ name ++ " HEAD does not exist."),
        by simp [CherryPickCommitsOnBranch, hn, h]⟩

/-- Witness for C10 at a concrete input: a branch with a name but no
head Nat. -/
theorem c10_witness :
    ∃ msg,
      CherryPickCommitsOnBranch
        { commits := [], refs := [], conflicts := [], fresh := 0, log := [] }
        ("org") ("repo") ⟨some ("b"), ⟨none⟩⟩ [] =
      (Res.err (GoErr.notFound msg),
        { commits := [], refs := [], conflicts := [], fresh := 0, log := [] }) :=
  c10_invalid_branch_state_unchanged _ _ _ _ _ (Or.inr rfl)

/-! ## C6: the empty commit list is a no-op -/

/-- C6: replaying an empty commit list on an existing branch with a
valid head returns no error and changes nothing except that the head
commit is read: no commit is created, no ref is updated or deleted, and
the branch head is unchanged. -/
theorem c6_empty_list_noop (s : Remote) (o r : String) (branch : GBranch)
    (bn : String) (h0 : Nat) (d : CommitData)
    (hname : branch.name = some bn) (hsha : branch.commit.sha = some h0)
    (hhead : assoc h0 s.commits = some d) :
    CherryPickCommitsOnBranch s o r branch [] =
      (Res.ok (), { s with log := s.log ++ [Event.evGetCommit h0] }) := by
  simp [CherryPickCommitsOnBranch, hname, hsha, getCommit, remoteGetCommit,
    hhead, cherryPickLoop]

/-- Witness for C6 at a concrete input. -/
theorem c6_witness :
    CherryPickCommitsOnBranch
      { commits := [(5, ⟨"m", 7, []⟩)], refs := [("refs/heads/b", 5)],
        conflicts := [], fresh := 8, log := [] }
      ("org") ("repo") ⟨some ("b"), ⟨some 5⟩⟩ [] =
    (Res.ok (),
      { commits := [(5, ⟨"m", 7, []⟩)], refs := [("refs/heads/b", 5)],
        conflicts := [], fresh := 8, log := [Event.evGetCommit 5] }) :=
  c6_empty_list_noop _ _ _ _ _ _ _ rfl rfl rfl

/-! ## C9: no parent-count validation before the index access -/

/-- C9: the engine performs no parent-count validation of its own.
Under the precondition that a commit has at least one parent the index
access Parents[0] is in bounds; on a commit with an empty parent list
the optional index of the embedding yields none and the access is a
runtime panic, which CherryPickCommitsOnBranch propagates from the
first replay step without any check of its own. -/
theorem c9_no_parent_count_validation :
    (∀ c : GCommit, c.parents ≠ [] → (c.parents[0]?).isSome = true) ∧
    (∀ (s : Remote) (o r bn : String) (c h : GCommit), c.parents = [] →
      cherryPickCommit s o r bn c h =
        (Res.panicked ("runtime error: index out of range"), s)) ∧
    (∀ (s : Remote) (o r : String) (branch : GBranch) (c : GCommit)
      (rest : List GCommit) (bn : String) (h0 : Nat) (d : CommitData),
      branch.name = some bn → branch.commit.sha = some h0 →
      assoc h0 s.commits = some d → c.parents = [] →
      (CherryPickCommitsOnBranch s o r branch (c :: rest)).1 =
        Res.panicked ("runtime error: index out of range")) := by
  refine ⟨?_, ?_, ?_⟩
  · intro c hc
    cases hp : c.parents with
    | nil => exact absurd hp hc
    | cons p rest => simp
  · intro s o r bn c h hc
    simp [cherryPickCommit, hc]
  · intro s o r branch c rest bn h0 d hname hsha hhead hc
    simp [CherryPickCommitsOnBranch, hname, hsha, getCommit, remoteGetCommit,
      hhead, cherryPickLoop, cherryPickCommit, hc]

/-- Witness for C9 at concrete inputs: a commit with a parent, a commit
without, and a full run that panics on the parentless commit. -/
theorem c9_witness :
    ((GCommit.mk (some 1) (some ("m")) none [GCommit.mk (some 0) none none []]).parents[0]?).isSome
      = true ∧
    cherryPickCommit
      { commits := [(5, ⟨"m", 7, []⟩)], refs := [("refs/heads/b", 5)],
        conflicts := [], fresh := 8, log := [] }
      ("org") ("repo") ("b") (GCommit.mk (some 1) (some ("m")) none [])
      (GCommit.mk (some 5) none none []) =
      (Res.panicked ("runtime error: index out of range"),
        { commits := [(5, ⟨"m", 7, []⟩)], refs := [("refs/heads/b", 5)],
          conflicts := [], fresh := 8, log := [] }) ∧
    (CherryPickCommitsOnBranch
      { commits := [(5, ⟨"m", 7, []⟩)], refs := [("refs/heads/b", 5)],
        conflicts := [], fresh := 8, log := [] }
      ("org") ("repo") ⟨some ("b"), ⟨some 5⟩⟩
      [GCommit.mk (some 1) (some ("m")) none []]).1 =
      Res.panicked ("runtime error: index out of range") :=
  ⟨c9_no_parent_count_validation.1 _ (by simp [GCommit.parents]),
   c9_no_parent_count_validation.2.1 _ _ _ _ _ _ rfl,
   c9_no_parent_count_validation.2.2 _ _ _ _ _ _ _ _ ⟨"m", 7, []⟩ rfl rfl rfl rfl⟩

/-! ## A concrete scenario shared by the witnesses

Mainline master holds commit 0.  The feature branch holds 0 → 1 → 2.
A release branch rel points at commit 10 (parent 0).  Fresh SHAs start
at 11. -/

def exStore : List (Nat × CommitData) :=
  [(2, ⟨"Add test", 102, [1]⟩), (1, ⟨"Fix bug", 101, [0]⟩),
   (0, ⟨"root", 100, []⟩), (10, ⟨"rel head", 110, [0]⟩)]

def exRefs : List (String × Nat) :=
  [("refs/heads/master", 0), ("refs/heads/feature", 2), ("refs/heads/rel", 10)]

/-- The conflict-free remote of the shared scenario. -/
def exRemote : Remote :=
  { commits := exStore, refs := exRefs, conflicts := [], fresh := 11, log := [] }

/-- The same remote with a merge conflict configured for the first
replay step (sibling 11 versus cherry commit 1). -/
def exRemoteConflict : Remote :=
  { commits := exStore, refs := exRefs, conflicts := [(11, 1)], fresh := 11, log := [] }

def exPick1 : GCommit := commitOfData 1 ⟨"Fix bug", 101, [0]⟩

def exPick2 : GCommit := commitOfData 2 ⟨"Add test", 102, [1]⟩

def exRelBranch : GBranch := ⟨some ("rel"), ⟨some 10⟩⟩

/-! ## C3: a failing step aborts the replay and deletes the branch -/

theorem cherryPickLoop_append (o r bn : String) (pre rest : List GCommit) :
    ∀ (s s1 : Remote) (h h1 : GCommit),
      cherryPickLoop s o r bn pre h = (Res.ok h1, s1) →
      cherryPickLoop s o r bn (pre ++ rest) h =
        cherryPickLoop s1 o r bn rest h1 := by
  induction pre with
  | nil =>
    intro s s1 h h1 hpre
    simp [cherryPickLoop] at hpre
    obtain ⟨h1eq, s1eq⟩ := hpre
    subst h1eq; subst s1eq
    simp
  | cons c pre ih =>
    intro s s1 h h1 hpre
    rw [List.cons_append]
    rw [cherryPickLoop] at hpre ⊢
    cases hstep : cherryPickCommit s o r bn c h with
    | mk res s2 =>
      rw [hstep] at hpre
      cases res with
      | ok v =>
        obtain ⟨tree, sha⟩ := v
        exact ih _ _ _ _ hpre
      | err e => simp at hpre
      | panicked m => simp at hpre

theorem deleteBranch_log (s : Remote) (o r bn : String) :
    (deleteBranch s o r bn).2.log =
      s.log ++ [Event.evDeleteRef (branchRefHeads ++ bn)] ∧
    (deleteBranch s o r bn).2.commits = s.commits := by
  unfold deleteBranch remoteDeleteRef
  cases h : assoc (branchRefHeads ++ bn) s.refs with
  | none => simp [h]
  | some v => simp [h]

/-- C3: if a replay step fails with an error (after any number of
successful steps), CherryPickCommitsOnBranch stops at that step: the
remaining commits are never attempted (the result does not depend on
them), the final state is exactly the state left by the failing step
with only the deferred branch deletion applied, that deletion issues a
deleteRef call naming the branch (last entry of the log), no further
commit object is appended, and the wrapped step error is returned. -/
theorem c3_step_failure_aborts_and_deletes (s0 sg s1 sf : Remote)
    (o r bn : String) (branch : GBranch) (h0 : Nat)
    (pre post : List GCommit) (c : GCommit) (hc h1 : GCommit) (e : GoErr)
    (hname : branch.name = some bn) (hsha : branch.commit.sha = some h0)
    (hget : getCommit s0 o r h0 = (Res.ok hc, sg))
    (hpre : cherryPickLoop sg o r bn pre hc = (Res.ok h1, s1))
    (hfail : cherryPickCommit s1 o r bn c h1 = (Res.err e, sf)) :
    CherryPickCommitsOnBranch s0 o r branch (pre ++ c :: post) =
      (Res.err (GoErr.wrap e), (deleteBranch sf o r bn).2) ∧
    (deleteBranch sf o r bn).2.commits = sf.commits ∧
    (deleteBranch sf o r bn).2.log =
      sf.log ++ [Event.evDeleteRef (branchRefHeads ++ bn)] := by
  refine ⟨?_, (deleteBranch_log sf o r bn).2, (deleteBranch_log sf o r bn).1⟩
  simp only [CherryPickCommitsOnBranch, hname, hsha, hget]
  rw [cherryPickLoop_append o r bn pre (c :: post) sg s1 hc h1 hpre]
  simp only [cherryPickLoop, hfail]

/-- Witness for C3: a two-commit replay whose first step hits a merge
conflict; the second commit is never attempted and the branch ref is
deleted. -/
theorem c3_witness :
    CherryPickCommitsOnBranch exRemoteConflict ("org") ("repo") exRelBranch
      ([] ++ exPick1 :: [exPick2]) =
      (Res.err (GoErr.wrap (GoErr.wrap (GoErr.wrap GoErr.conflict))),
        (deleteBranch
          (cherryPickCommit
            { exRemoteConflict with log := [Event.evGetCommit 10] }
            ("org") ("repo") ("rel") exPick1
            (commitOfData 10 ⟨"rel head", 110, [0]⟩)).2
          ("org") ("repo") ("rel")).2) := by
  have h := c3_step_failure_aborts_and_deletes exRemoteConflict
    { exRemoteConflict with log := [Event.evGetCommit 10] }
    { exRemoteConflict with log := [Event.evGetCommit 10] }
    (cherryPickCommit { exRemoteConflict with log := [Event.evGetCommit 10] }
      ("org") ("repo") ("rel") exPick1
      (commitOfData 10 ⟨"rel head", 110, [0]⟩)).2
    ("org") ("repo") ("rel") exRelBranch 10 [] [exPick2] exPick1
    (commitOfData 10 ⟨"rel head", 110, [0]⟩)
    (commitOfData 10 ⟨"rel head", 110, [0]⟩)
    (GoErr.wrap (GoErr.wrap GoErr.conflict))
    rfl rfl rfl rfl rfl
  exact h.1

/-! ## Characterization of one successful replay step -/

/-- The state left by one successful replay step from state s with head
Nat hsha, sibling tree tsha, cherry Nat csha, pick parent psha and
message msg: sibling at fresh, merge commit at fresh + 1 with result
tree fresh + 2, final commit at fresh + 3, branch ref repointed to the
final commit, and the seven primitive calls logged. -/
def stepState (s : Remote) (bn : String) (hsha tsha csha psha : Nat)
    (msg : String) : Remote :=
  { commits := (s.fresh + 3, ⟨msg, s.fresh + 2, [hsha]⟩) ::
      (s.fresh + 1, ⟨"merge", s.fresh + 2, [s.fresh, csha]⟩) ::
      (s.fresh, ⟨"temp", tsha, [psha]⟩) :: s.commits
    refs := setAssoc (branchRefHeads ++ bn) (s.fresh + 3) s.refs
    conflicts := s.conflicts
    fresh := s.fresh + 4
    log := s.log ++
      [Event.evCreateCommit ("temp") tsha psha s.fresh,
       Event.evUpdateRef (branchRefHeads ++ bn) s.fresh,
       Event.evMerge bn csha,
       Event.evGetCommit (s.fresh + 1),
       Event.evGetCommit hsha,
       Event.evCreateCommit msg (s.fresh + 2) hsha (s.fresh + 3),
       Event.evUpdateRef (branchRefHeads ++ bn) (s.fresh + 3)] }

theorem cherryPickCommit_ok_spec (s : Remote) (o r bn : String)
    (c h p : GCommit) (psha tsha rOld csha hsha : Nat)
    (t : GTree) (hd : CommitData) (msg : String)
    (hp : c.parents[0]? = some p)
    (hpsha : p.sha = some psha)
    (htree : h.getTree = some t)
    (htsha : t.sha = some tsha)
    (href : assoc (branchRefHeads ++ bn) s.refs = some rOld)
    (hcsha : c.sha = some csha)
    (hnoconf : (s.fresh, csha) ∉ s.conflicts)
    (hhsha : h.sha = some hsha)
    (hext : assoc hsha ((s.fresh + 1, ⟨"merge", s.fresh + 2, [s.fresh, csha]⟩) ::
      (s.fresh, ⟨"temp", tsha, [psha]⟩) :: s.commits) = some hd)
    (hmsg : c.message = some msg) :
    cherryPickCommit s o r bn c h =
      (Res.ok (some (GTree.mk (some (s.fresh + 2))), s.fresh + 3),
        stepState s bn hsha tsha csha psha msg) := by
  have htree2 : h.tree = some t := htree
  have e1 := assoc_setAssoc_self s.fresh href
  have e2 := assoc_setAssoc_self (s.fresh + 1) e1
  have e3 : setAssoc (branchRefHeads ++ bn) (s.fresh + 3)
      (setAssoc (branchRefHeads ++ bn) (s.fresh + 1)
        (setAssoc (branchRefHeads ++ bn) s.fresh s.refs)) =
      setAssoc (branchRefHeads ++ bn) (s.fresh + 3) s.refs := by
    rw [setAssoc_setAssoc, setAssoc_setAssoc]
  obtain ⟨ca, cb, cc, cd⟩ := c
  obtain ⟨ha, hb, hc2, hd2⟩ := h
  obtain ⟨pa, pb, pc2, pd⟩ := p
  obtain ⟨ta⟩ := t
  simp only [GCommit.parents, GCommit.sha, GCommit.message, GCommit.tree,
    GTree.sha] at hp hcsha hmsg htree2 hhsha hpsha htsha
  subst hcsha hmsg htree2 hhsha hpsha htsha
  simp [cherryPickCommit, hp, createSiblingCommit, createCommit,
    remoteCreateCommit, GCommit.getTree, updateBranch, remoteUpdateRef,
    merge, remoteMerge, getCommit, remoteGetCommit, commitOfData, stepState,
    href, e1, e2, e3, hnoconf, hext, assoc_cons_self, GCommit.tree,
    GCommit.sha, GCommit.message, GCommit.parents, GTree.sha]

theorem cherryPickCommit_ok_inv (s : Remote) (o r bn : String)
    (c h : GCommit) (tr : Option GTree) (sha : Nat) (s2 : Remote)
    (hok : cherryPickCommit s o r bn c h = (Res.ok (tr, sha), s2)) :
    ∃ p psha t tsha rOld csha hsha msg hd,
      c.parents[0]? = some p ∧ p.sha = some psha ∧ h.getTree = some t ∧
      t.sha = some tsha ∧ assoc (branchRefHeads ++ bn) s.refs = some rOld ∧
      c.sha = some csha ∧ (s.fresh, csha) ∉ s.conflicts ∧ h.sha = some hsha ∧
      assoc hsha ((s.fresh + 1, ⟨"merge", s.fresh + 2, [s.fresh, csha]⟩) ::
        (s.fresh, ⟨"temp", tsha, [psha]⟩) :: s.commits) = some hd ∧
      c.message = some msg ∧
      tr = some (GTree.mk (some (s.fresh + 2))) ∧ sha = s.fresh + 3 ∧
      s2 = stepState s bn hsha tsha csha psha msg := by
  cases hp : c.parents[0]? with
  | none => simp [cherryPickCommit, hp] at hok
  | some p =>
  cases hts : h.tree with
  | none =>
    simp [cherryPickCommit, hp, createSiblingCommit, createCommit,
      remoteCreateCommit, GCommit.getTree, hts] at hok
  | some t =>
  cases htsha : t.sha with
  | none =>
    simp [cherryPickCommit, hp, createSiblingCommit, createCommit,
      remoteCreateCommit, GCommit.getTree, hts, htsha] at hok
  | some tsha =>
  cases hps : p.sha with
  | none =>
    simp [cherryPickCommit, hp, createSiblingCommit, createCommit,
      remoteCreateCommit, GCommit.getTree, hts, htsha, hps] at hok
  | some psha =>
  cases href : assoc (branchRefHeads ++ bn) s.refs with
  | none =>
    simp [cherryPickCommit, hp, createSiblingCommit, createCommit,
      remoteCreateCommit, GCommit.getTree, hts, htsha, hps, updateBranch,
      remoteUpdateRef, href] at hok
  | some rOld =>
  cases hcs : c.sha with
  | none =>
    simp [cherryPickCommit, hp, createSiblingCommit, createCommit,
      remoteCreateCommit, GCommit.getTree, hts, htsha, hps, updateBranch,
      remoteUpdateRef, href] at hok
    simp [hcs] at hok
  | some csha =>
  have e1 := assoc_setAssoc_self s.fresh href
  by_cases hcf : (s.fresh, csha) ∈ s.conflicts
  · simp [cherryPickCommit, hp, createSiblingCommit, createCommit,
      remoteCreateCommit, GCommit.getTree, hts, htsha, hps, updateBranch,
      remoteUpdateRef, href, hcs, merge, remoteMerge, e1, hcf] at hok
  · cases hhs : h.sha with
    | none =>
      simp [cherryPickCommit, hp, createSiblingCommit, createCommit,
        remoteCreateCommit, GCommit.getTree, hts, htsha, hps, updateBranch,
        remoteUpdateRef, href, hcs, merge, remoteMerge, e1, hcf, getCommit,
        remoteGetCommit, assoc_cons_self, commitOfData, hhs] at hok
    | some hsha =>
      cases hga : assoc hsha
          ((s.fresh + 1, (⟨"merge", s.fresh + 2, [s.fresh, csha]⟩ : CommitData)) ::
            (s.fresh, (⟨"temp", tsha, [psha]⟩ : CommitData)) :: s.commits) with
      | none =>
        simp [cherryPickCommit, hp, createSiblingCommit, createCommit,
          remoteCreateCommit, GCommit.getTree, hts, htsha, hps, updateBranch,
          remoteUpdateRef, href, hcs, merge, remoteMerge, e1, hcf, getCommit,
          remoteGetCommit, assoc_cons_self, commitOfData, hhs, hga] at hok
      | some hd =>
      cases hcm : c.message with
      | none =>
        simp [cherryPickCommit, hp, createSiblingCommit, createCommit,
          remoteCreateCommit, GCommit.getTree, hts, htsha, hps, updateBranch,
          remoteUpdateRef, href, hcs, merge, remoteMerge, e1, hcf, getCommit,
          remoteGetCommit, assoc_cons_self, commitOfData, hhs, hga, hcm] at hok
      | some msg =>
        rw [cherryPickCommit_ok_spec s o r bn c h p psha tsha rOld csha hsha
          t hd msg hp hps hts htsha href hcs hcf hhs hga hcm] at hok
        simp only [Prod.mk.injEq, Res.ok.injEq] at hok
        obtain ⟨⟨htr, hsh⟩, hs2⟩ := hok
        refine ⟨p, psha, t, tsha, rOld, csha, hsha, msg, hd, ?_, ?_, ?_, ?_,
          ?_, ?_, ?_, ?_, ?_, ?_, ?_, ?_, ?_⟩ <;>
          first
          | rfl
          | assumption
          | exact hts
          | exact htr.symm
          | exact hsh.symm
          | exact hs2.symm

/-! ## C4: the exact call sequence of one successful replay step -/

/-- C4: a successful single-commit replay performs exactly this
sequence: create a sibling commit whose tree equals the tree of the
current branch head and whose sole parent is the parent of the
cherry-pick commit; repoint the branch ref to the sibling; invoke the
remote merge with the branch as base and the Nat of the cherry-pick
commit as head (reading back the merge commit); re-read the original
pre-sibling head commit; create a final commit carrying the message of
the cherry-pick commit, the result tree of the merge, and the original
head as sole parent; and repoint the branch ref to that final commit. -/
theorem c4_step_call_sequence (s : Remote) (o r bn : String) (c h : GCommit)
    (tr : Option GTree) (sha : Nat) (s2 : Remote) (hsha : Nat)
    (hok : cherryPickCommit s o r bn c h = (Res.ok (tr, sha), s2))
    (hhsha : h.sha = some hsha) (hlt : hsha < s.fresh) :
    ∃ p psha t tsha csha msg,
      c.parents[0]? = some p ∧ p.sha = some psha ∧ h.getTree = some t ∧
      t.sha = some tsha ∧ c.sha = some csha ∧ c.message = some msg ∧
      s2.log = s.log ++
        [Event.evCreateCommit ("temp") tsha psha s.fresh,
         Event.evUpdateRef (branchRefHeads ++ bn) s.fresh,
         Event.evMerge bn csha,
         Event.evGetCommit (s.fresh + 1),
         Event.evGetCommit hsha,
         Event.evCreateCommit msg (s.fresh + 2) hsha (s.fresh + 3),
         Event.evUpdateRef (branchRefHeads ++ bn) (s.fresh + 3)] ∧
      assoc s.fresh s2.commits = some ⟨"temp", tsha, [psha]⟩ ∧
      assoc (s.fresh + 1) s2.commits = some ⟨"merge", s.fresh + 2, [s.fresh, csha]⟩ ∧
      assoc (s.fresh + 3) s2.commits = some ⟨msg, s.fresh + 2, [hsha]⟩ ∧
      tr = some (GTree.mk (some (s.fresh + 2))) ∧ sha = s.fresh + 3 ∧
      s2.refs = setAssoc (branchRefHeads ++ bn) (s.fresh + 3) s.refs := by
  obtain ⟨p, psha, t, tsha, rOld, csha, hsha2, msg, hd, hp, hps, hts, htsha,
    href, hcs, hcf, hhs, hga, hcm, htr, hsh, hs2⟩ :=
    cherryPickCommit_ok_inv s o r bn c h tr sha s2 hok
  have hsame : hsha2 = hsha := by
    rw [hhs] at hhsha
    exact Option.some.inj hhsha
  subst hsame
  have n1 : (s.fresh : Nat) ≠ s.fresh + 3 := by omega
  have n2 : (s.fresh : Nat) ≠ s.fresh + 1 := by omega
  have n3 : (s.fresh : Nat) + 1 ≠ s.fresh + 3 := by omega
  have n4 : (s.fresh : Nat) + 3 ≠ s.fresh + 1 := by omega
  refine ⟨p, psha, t, tsha, csha, msg, hp, hps, hts, htsha, hcs, hcm, ?_,
    ?_, ?_, ?_, htr, hsh, ?_⟩
  · rw [hs2]; rfl
  · rw [hs2]
    simp [stepState, assoc, n1, n2]
  · rw [hs2]
    simp [stepState, assoc, n4]
  · rw [hs2]
    simp [stepState, assoc]
  · rw [hs2]; rfl

/-- Witness for C4 at a concrete input: one successful replay step of
the shared scenario. -/
theorem c4_witness :
    ∃ p psha t tsha csha msg,
      exPick1.parents[0]? = some p ∧ p.sha = some psha ∧
      (commitOfData 10 ⟨"rel head", 110, [0]⟩).getTree = some t ∧
      t.sha = some tsha ∧ exPick1.sha = some csha ∧ exPick1.message = some msg ∧
      (cherryPickCommit exRemote ("org") ("repo") ("rel") exPick1
          (commitOfData 10 ⟨"rel head", 110, [0]⟩)).2.log =
        exRemote.log ++
          [Event.evCreateCommit ("temp") tsha psha exRemote.fresh,
           Event.evUpdateRef (branchRefHeads ++ "rel") exRemote.fresh,
           Event.evMerge ("rel") csha,
           Event.evGetCommit (exRemote.fresh + 1),
           Event.evGetCommit 10,
           Event.evCreateCommit msg (exRemote.fresh + 2) 10 (exRemote.fresh + 3),
           Event.evUpdateRef (branchRefHeads ++ "rel") (exRemote.fresh + 3)] ∧
      assoc exRemote.fresh
          (cherryPickCommit exRemote ("org") ("repo") ("rel") exPick1
            (commitOfData 10 ⟨"rel head", 110, [0]⟩)).2.commits =
        some ⟨"temp", tsha, [psha]⟩ ∧
      assoc (exRemote.fresh + 1)
          (cherryPickCommit exRemote ("org") ("repo") ("rel") exPick1
            (commitOfData 10 ⟨"rel head", 110, [0]⟩)).2.commits =
        some ⟨"merge", exRemote.fresh + 2, [exRemote.fresh, csha]⟩ ∧
      assoc (exRemote.fresh + 3)
          (cherryPickCommit exRemote ("org") ("repo") ("rel") exPick1
            (commitOfData 10 ⟨"rel head", 110, [0]⟩)).2.commits =
        some ⟨msg, exRemote.fresh + 2, [10]⟩ ∧
      some (GTree.mk (some (exRemote.fresh + 2))) =
        some (GTree.mk (some (exRemote.fresh + 2))) ∧
      (exRemote.fresh + 3 : Nat) = exRemote.fresh + 3 ∧
      (cherryPickCommit exRemote ("org") ("repo") ("rel") exPick1
          (commitOfData 10 ⟨"rel head", 110, [0]⟩)).2.refs =
        setAssoc (branchRefHeads ++ "rel") (exRemote.fresh + 3) exRemote.refs :=
  c4_step_call_sequence exRemote ("org") ("repo") ("rel") exPick1
    (commitOfData 10 ⟨"rel head", 110, [0]⟩)
    (some (GTree.mk (some (exRemote.fresh + 2)))) (exRemote.fresh + 3)
    (cherryPickCommit exRemote ("org") ("repo") ("rel") exPick1
      (commitOfData 10 ⟨"rel head", 110, [0]⟩)).2 10 rfl rfl (by decide)

/-! ## Well-formedness of the store and of cherry-pick inputs -/

/-- Every stored commit has a key below the fresh counter and parents
strictly below its own key (commits only reference older commits). -/
def storeOK (store : List (Nat × CommitData)) (fresh : Nat) : Bool :=
  store.all (fun kd => decide (kd.1 < fresh) &&
    kd.2.parents.all (fun q => decide (q < kd.1)))

/-- A commit fit for replay: exactly one parent, and its SHA, parent SHA
and message all present, the SHAs below the given bound. -/
def pickable (c : GCommit) (n : Nat) : Bool :=
  match c.parents, c.sha, c.message with
  | [p], some csha, some _ =>
    (match p.sha with
     | some psha => decide (psha < n)
     | none => false) && decide (csha < n)
  | _, _, _ => false

theorem storeOK_mem {store : List (Nat × CommitData)} {fresh : Nat}
    (hok : storeOK store fresh = true) {k : Nat} {d : CommitData}
    (hmem : (k, d) ∈ store) : k < fresh ∧ ∀ q ∈ d.parents, q < k := by
  have := List.all_eq_true.mp hok _ hmem
  simp only [Bool.and_eq_true, decide_eq_true_eq, List.all_eq_true] at this
  exact ⟨this.1, fun q hq => by
    have := this.2 q hq
    simpa using this⟩

theorem storeOK_assoc {store : List (Nat × CommitData)} {fresh : Nat}
    (hok : storeOK store fresh = true) {k : Nat} {d : CommitData}
    (ha : assoc k store = some d) : k < fresh ∧ ∀ q ∈ d.parents, q < k :=
  storeOK_mem hok (assoc_mem ha)

theorem storeOK_mono {store : List (Nat × CommitData)} {f1 f2 : Nat}
    (hle : f1 ≤ f2) (hok : storeOK store f1 = true) : storeOK store f2 = true := by
  rw [storeOK, List.all_eq_true] at hok ⊢
  intro kd hkd
  have := hok kd hkd
  simp only [Bool.and_eq_true, decide_eq_true_eq] at this ⊢
  exact ⟨lt_of_lt_of_le this.1 hle, this.2⟩

theorem pickable_iff (c : GCommit) (n : Nat) :
    pickable c n = true ↔
      ∃ p psha csha m, c.parents = [p] ∧ p.sha = some psha ∧ psha < n ∧
        c.sha = some csha ∧ csha < n ∧ c.message = some m := by
  obtain ⟨a, b, tr, ps⟩ := c
  simp only [pickable, GCommit.parents, GCommit.sha, GCommit.message]
  cases ps with
  | nil => simp
  | cons p rest =>
    cases rest with
    | cons q r2 => simp
    | nil =>
      cases a with
      | none => simp
      | some csha =>
        cases b with
        | none => simp
        | some m =>
          obtain ⟨pa, pb, pc2, pd⟩ := p
          cases pa with
          | none => simp [GCommit.sha]
          | some psha =>
            simp [GCommit.sha]

theorem pickable_mono {c : GCommit} {n1 n2 : Nat} (hle : n1 ≤ n2)
    (hc : pickable c n1 = true) : pickable c n2 = true := by
  rw [pickable_iff] at hc ⊢
  obtain ⟨p, psha, csha, m, h1, h2, h3, h4, h5, h6⟩ := hc
  exact ⟨p, psha, csha, m, h1, h2, lt_of_lt_of_le h3 hle, h4,
    lt_of_lt_of_le h5 hle, h6⟩

theorem pickable_fields {c : GCommit} {n : Nat} (hc : pickable c n = true) :
    ∃ p psha csha m, c.parents = [p] ∧ p.sha = some psha ∧ psha < n ∧
      c.sha = some csha ∧ csha < n ∧ c.message = some m :=
  (pickable_iff c n).mp hc

theorem setShaTree_sha (c : GCommit) (sha : Nat) (tr : Option GTree) :
    (c.setShaTree sha tr).sha = some sha := by
  cases c; rfl

theorem cherryPickLoop_ok_spec (o r bn : String) :
    ∀ (cs : List GCommit) (s : Remote) (h hret : GCommit) (hsha : Nat) (s2 : Remote),
      storeOK s.commits s.fresh = true →
      cs.all (fun c => pickable c s.fresh) = true →
      h.sha = some hsha → hsha < s.fresh →
      cherryPickLoop s o r bn cs h = (Res.ok hret, s2) →
      s2.fresh = s.fresh + 4 * cs.length ∧
      s2.conflicts = s.conflicts ∧
      (cs = [] → s2 = s ∧ hret = h) ∧
      (cs ≠ [] →
        s2.refs = setAssoc (branchRefHeads ++ bn)
          (s.fresh + 4 * (cs.length - 1) + 3) s.refs ∧
        hret.sha = some (s.fresh + 4 * (cs.length - 1) + 3)) ∧
      (∀ x, x < s.fresh → assoc x s2.commits = assoc x s.commits) ∧
      storeOK s2.commits s2.fresh = true ∧
      (∀ k, (hk : k < cs.length) → ∃ msg,
        (cs.get ⟨k, hk⟩).message = some msg ∧
        assoc (s.fresh + 4 * k + 3) s2.commits =
          some ⟨msg, s.fresh + 4 * k + 2,
            [if k = 0 then hsha else s.fresh + 4 * (k - 1) + 3]⟩) := by
  intro cs
  induction cs with
  | nil =>
    intro s h hret hsha s2 hsOK hall hhsha hlt hloop
    rw [cherryPickLoop] at hloop
    simp only [Prod.mk.injEq, Res.ok.injEq] at hloop
    obtain ⟨hh, hs⟩ := hloop
    subst hh; subst hs
    refine ⟨by simp, rfl, fun _ => ⟨rfl, rfl⟩, fun hne => absurd rfl hne,
      fun x hx => rfl, hsOK, ?_⟩
    intro k hk
    exact absurd hk (by simp)
  | cons c rest ih =>
    intro s h hret hsha s2 hsOK hall hhsha hlt hloop
    rw [cherryPickLoop] at hloop
    cases hstep : cherryPickCommit s o r bn c h with
    | mk res s1 =>
      rw [hstep] at hloop
      cases res with
      | err e => simp at hloop
      | panicked m => simp at hloop
      | ok v =>
        obtain ⟨tr, sha⟩ := v
        obtain ⟨p, psha0, t, tsha, rOld, csha0, hsha2, msg, hd, hp, hps, hts,
          htsha, href, hcs, hcf, hhs, hga, hcm, htr, hsh, hs1⟩ :=
          cherryPickCommit_ok_inv s o r bn c h tr sha s1 hstep
        have hsame : hsha = hsha2 := by
          rw [hhs] at hhsha; exact (Option.some.inj hhsha).symm
        subst hsame
        subst hsh; subst htr; subst hs1
        rw [List.all_cons, Bool.and_eq_true] at hall
        obtain ⟨hcpick, hallrest⟩ := hall
        obtain ⟨p2, psha2, csha2, m2, hcp2, hpsha2, hpsha2lt, hcs2, hcs2lt, hcm2⟩ :=
          pickable_fields hcpick
        have hpp : p2 = p := by
          rw [hcp2] at hp
          simpa using hp
        subst hpp
        have hpsha0 : psha2 = psha0 := by
          rw [hpsha2] at hps; exact Option.some.inj hps
        subst hpsha0
        have hcsha0 : csha2 = csha0 := by
          rw [hcs2] at hcs; exact Option.some.inj hcs
        subst hcsha0
        -- well-formedness of the post-step state
        have hsOK1 : storeOK (stepState s bn hsha tsha csha2 psha2 msg).commits
            (stepState s bn hsha tsha csha2 psha2 msg).fresh = true := by
          simp only [stepState, storeOK, List.all_cons, Bool.and_eq_true,
            decide_eq_true_eq, List.all_nil, Bool.and_true]
          refine ⟨⟨by omega, by omega⟩, ⟨by omega, by omega, by omega⟩,
            ⟨by omega, by omega⟩, ?_⟩
          have := storeOK_mono (by omega : s.fresh ≤ s.fresh + 4) hsOK
          rw [storeOK] at this
          exact this
        have hall1 : rest.all
            (fun c => pickable c (stepState s bn hsha tsha csha2 psha2 msg).fresh) = true := by
          rw [List.all_eq_true] at hallrest ⊢
          intro c2 hc2
          exact pickable_mono (by simp only [stepState]; omega) (hallrest c2 hc2)
        have hnext := ih (stepState s bn hsha tsha csha2 psha2 msg)
          (h.setShaTree (s.fresh + 3) (some (GTree.mk (some (s.fresh + 2)))))
          hret (s.fresh + 3) s2 hsOK1 hall1
          (setShaTree_sha h _ _) (by simp only [stepState]; omega) hloop
        obtain ⟨ihfresh, ihconf, ihnil, ihnonnil, ihassoc, ihOK, ihidx⟩ := hnext
        have hstepfresh : (stepState s bn hsha tsha csha2 psha2 msg).fresh = s.fresh + 4 := rfl
        have hstepconf : (stepState s bn hsha tsha csha2 psha2 msg).conflicts = s.conflicts := rfl
        have hsteprefs : (stepState s bn hsha tsha csha2 psha2 msg).refs =
          setAssoc (branchRefHeads ++ bn) (s.fresh + 3) s.refs := rfl
        refine ⟨?_, ?_, ?_, ?_, ?_, ?_, ?_⟩
        · rw [ihfresh, hstepfresh]
          simp [List.length_cons]
          omega
        · rw [ihconf, hstepconf]
        · intro hnil
          simp at hnil
        · intro hne
          cases rest with
          | nil =>
            obtain ⟨hs2, hret2⟩ := ihnil rfl
            subst hs2
            constructor
            · rw [hsteprefs]
              simp
            · rw [hret2, setShaTree_sha]
              simp
          | cons r1 r2 =>
            have hne2 : (r1 :: r2 : List GCommit) ≠ [] := by simp
            obtain ⟨hrefs, hretsha⟩ := ihnonnil hne2
            constructor
            · rw [hrefs, hsteprefs, hstepfresh, setAssoc_setAssoc]
              congr 1
              simp [List.length_cons]
              omega
            · rw [hretsha, hstepfresh]
              congr 2
              simp [List.length_cons]
              omega
        · intro x hx
          rw [ihassoc x (by rw [hstepfresh]; omega)]
          simp only [stepState]
          rw [assoc_cons_ne _ _ (by omega), assoc_cons_ne _ _ (by omega),
            assoc_cons_ne _ _ (by omega)]
        · exact ihOK
        · intro k hk
          cases k with
          | zero =>
            refine ⟨msg, hcm, ?_⟩
            rw [ihassoc (s.fresh + 4 * 0 + 3) (by rw [hstepfresh]; omega)]
            simp only [stepState]
            rw [show s.fresh + 4 * 0 + 3 = s.fresh + 3 by omega]
            rw [assoc_cons_self]
            simp
          | succ j =>
            have hj : j < rest.length := by
              simp [List.length_cons] at hk
              omega
            obtain ⟨msg2, hmsg2, hassoc2⟩ := ihidx j hj
            refine ⟨msg2, ?_, ?_⟩
            · simpa using hmsg2
            · rw [show s.fresh + 4 * (j + 1) + 3 =
                (stepState s bn hsha tsha csha2 psha2 msg).fresh + 4 * j + 3 by
                  rw [hstepfresh]; omega]
              rw [hassoc2]
              congr 2
              · rw [hstepfresh]; omega
              · cases j with
                | zero => simp [hstepfresh]
                | succ j2 =>
                  simp only [hstepfresh]
                  have : j2 + 1 + 1 ≠ 0 := by omega
                  simp only [if_neg this, if_neg (by omega : j2 + 1 ≠ 0)]
                  congr 1
                  omega

/-! ## Commit-graph reasoning: first-parent chains and reachability -/

/-- Stored parents are strictly below their commit key. -/
def parentsDec (store : List (Nat × CommitData)) : Prop :=
  ∀ k d, assoc k store = some d → ∀ q ∈ d.parents, q < k

theorem storeOK_parentsDec {store : List (Nat × CommitData)} {fresh : Nat}
    (h : storeOK store fresh = true) : parentsDec store :=
  fun _ _ ha => (storeOK_assoc h ha).2

/-- Canonical first-parent history of a commit: fuel one more than the
key suffices on a parent-decreasing store. -/
def chainC (store : List (Nat × CommitData)) (x : Nat) : List Nat :=
  chainFrom store (x + 1) x

/-- Canonical reachability through all parents. -/
def reachesC (store : List (Nat × CommitData)) (a b : Nat) : Bool :=
  reachesB store (a + 1) a b

theorem listAny_congr {α : Type} {f g : α → Bool} :
    ∀ l : List α, (∀ a ∈ l, f a = g a) → l.any f = l.any g := by
  intro l
  induction l with
  | nil => intro _; rfl
  | cons a rest ih =>
    intro hfg
    simp only [List.any_cons]
    rw [hfg a (List.mem_cons_self _ _), ih (fun b hb => hfg b (List.mem_cons_of_mem _ hb))]

theorem chainFrom_stable {store : List (Nat × CommitData)}
    (hdec : parentsDec store) :
    ∀ x f1 f2, x < f1 → x < f2 → chainFrom store f1 x = chainFrom store f2 x := by
  intro x
  induction x using Nat.strong_induction_on with
  | _ x ihx =>
    intro f1 f2 h1 h2
    cases f1 with
    | zero => omega
    | succ a =>
      cases f2 with
      | zero => omega
      | succ b =>
        rw [chainFrom, chainFrom]
        cases ha : assoc x store with
        | none => rfl
        | some d =>
          cases hps : d.parents with
          | nil => simp [hps]
          | cons q qs =>
            have hq : q < x := hdec x d ha q (by rw [hps]; exact List.mem_cons_self _ _)
            simp only [hps]
            rw [ihx q hq a b (by omega) (by omega)]

theorem chainFrom_congr {A B : List (Nat × CommitData)} {n : Nat}
    (hagree : ∀ y, y < n → assoc y A = assoc y B)
    (hdec : parentsDec B) :
    ∀ f x, x < n → chainFrom A f x = chainFrom B f x := by
  intro f
  induction f with
  | zero => intro x _; rfl
  | succ a ih =>
    intro x hx
    rw [chainFrom, chainFrom, hagree x hx]
    cases hb : assoc x B with
    | none => rfl
    | some d =>
      cases hps : d.parents with
      | nil => simp [hps]
      | cons q qs =>
        have hq : q < x := hdec x d hb q (by rw [hps]; exact List.mem_cons_self _ _)
        simp only [hps]
        rw [ih q (by omega)]

theorem reachesB_stable {store : List (Nat × CommitData)}
    (hdec : parentsDec store) :
    ∀ a f1 f2 y, a < f1 → a < f2 →
      reachesB store f1 a y = reachesB store f2 a y := by
  intro a
  induction a using Nat.strong_induction_on with
  | _ a iha =>
    intro f1 f2 y h1 h2
    cases f1 with
    | zero => omega
    | succ u =>
      cases f2 with
      | zero => omega
      | succ v =>
        rw [reachesB, reachesB]
        cases ha : assoc a store with
        | none => rfl
        | some d =>
          have heq : d.parents.any (fun q => reachesB store u q y) =
              d.parents.any (fun q => reachesB store v q y) := by
            apply listAny_congr
            intro q hq
            have hqa : q < a := hdec a d ha q hq
            exact iha q hqa u v y (by omega) (by omega)
          simp only [heq]

theorem reachesB_congr {A B : List (Nat × CommitData)} {n : Nat}
    (hagree : ∀ y, y < n → assoc y A = assoc y B)
    (hdec : parentsDec B) :
    ∀ f a y, a < n → reachesB A f a y = reachesB B f a y := by
  intro f
  induction f with
  | zero => intro a y _; rfl
  | succ u ih =>
    intro a y ha
    rw [reachesB, reachesB, hagree a ha]
    cases hb : assoc a B with
    | none => rfl
    | some d =>
      have heq : d.parents.any (fun q => reachesB A u q y) =
          d.parents.any (fun q => reachesB B u q y) := by
        apply listAny_congr
        intro q hq
        have hqa : q < a := hdec a d hb q hq
        exact ih q y (by omega)
      simp only [heq]

theorem reachesB_le {store : List (Nat × CommitData)}
    (hdec : parentsDec store) :
    ∀ f a x, reachesB store f a x = true → x ≤ a := by
  intro f
  induction f with
  | zero =>
    intro a x h
    rw [reachesB] at h
    simp at h
    omega
  | succ u ih =>
    intro a x h
    rw [reachesB] at h
    rw [Bool.or_eq_true] at h
    rcases h with h | h
    · simp at h; omega
    · cases ha : assoc a store with
      | none => rw [ha] at h; simp at h
      | some d =>
        rw [ha] at h
        rw [List.any_eq_true] at h
        obtain ⟨q, hq, hreach⟩ := h
        have hqa : q < a := hdec a d ha q hq
        have := ih q x hreach
        omega

theorem chain_steps (s2store s0store : List (Nat × CommitData)) (F h0 : Nat)
    (hold : ∀ x, x < F → assoc x s2store = assoc x s0store)
    (hdec2 : parentsDec s2store) (hdec0 : parentsDec s0store)
    (hlt : h0 < F) :
    ∀ n, (∀ k, k ≤ n → ∃ msg, assoc (F + 4 * k + 3) s2store =
        some ⟨msg, F + 4 * k + 2, [if k = 0 then h0 else F + 4 * (k - 1) + 3]⟩) →
      chainC s2store (F + 4 * n + 3) =
        (((List.range (n + 1)).map (fun k => F + 4 * k + 3)).reverse) ++
          chainC s0store h0 := by
  intro n
  induction n with
  | zero =>
    intro hidx
    obtain ⟨msg, hm⟩ := hidx 0 (le_refl 0)
    simp only [Nat.mul_zero, Nat.add_zero, if_pos rfl] at hm
    rw [chainC, chainFrom]
    simp only [Nat.mul_zero, Nat.add_zero]
    rw [hm]
    have hst : chainFrom s2store (F + 3) h0 = chainC s0store h0 := by
      rw [chainFrom_stable hdec2 h0 (F + 3) (h0 + 1) (by omega) (by omega)]
      exact chainFrom_congr hold hdec0 (h0 + 1) h0 hlt
    simp [hst, List.range_succ, chainC]
  | succ n ih =>
    intro hidx
    have ihres := ih (fun k hk => hidx k (Nat.le_succ_of_le hk))
    obtain ⟨msg, hm⟩ := hidx (n + 1) (le_refl _)
    have hne : (n + 1 : Nat) ≠ 0 := by omega
    simp only [if_neg hne, Nat.add_sub_cancel] at hm
    rw [chainC, chainFrom]
    simp only [hm]
    have hst : chainFrom s2store (F + 4 * (n + 1) + 3) (F + 4 * n + 3) =
        chainC s2store (F + 4 * n + 3) := by
      exact chainFrom_stable hdec2 (F + 4 * n + 3) (F + 4 * (n + 1) + 3)
        (F + 4 * n + 3 + 1) (by omega) (by omega)
    rw [hst, ihres]
    simp [List.range_succ, List.map_append, List.reverse_append]

theorem reach_steps (s2store s0store : List (Nat × CommitData)) (F h0 : Nat)
    (hold : ∀ x, x < F → assoc x s2store = assoc x s0store)
    (hdec2 : parentsDec s2store) (hdec0 : parentsDec s0store)
    (hlt : h0 < F) :
    ∀ n, (∀ k, k ≤ n → ∃ msg, assoc (F + 4 * k + 3) s2store =
        some ⟨msg, F + 4 * k + 2, [if k = 0 then h0 else F + 4 * (k - 1) + 3]⟩) →
      ∀ x, reachesC s2store (F + 4 * n + 3) x = true →
        (∃ k, k ≤ n ∧ x = F + 4 * k + 3) ∨ reachesC s0store h0 x = true := by
  intro n
  induction n with
  | zero =>
    intro hidx x hreach
    obtain ⟨msg, hm⟩ := hidx 0 (le_refl 0)
    simp only [Nat.mul_zero, Nat.add_zero, if_pos rfl] at hm
    rw [reachesC, reachesB] at hreach
    simp only [Nat.mul_zero, Nat.add_zero] at hreach
    simp only [hm] at hreach
    simp only [if_true, List.any_cons, List.any_nil, Bool.or_false,
      Bool.or_eq_true, decide_eq_true_eq] at hreach
    rcases hreach with hreach | hreach
    · exact Or.inl ⟨0, le_refl 0, by omega⟩
    · right
      rw [reachesB_stable hdec2 h0 (F + 3) (h0 + 1) x (by omega) (by omega)] at hreach
      rw [reachesB_congr hold hdec0 (h0 + 1) h0 x hlt] at hreach
      exact hreach
  | succ n ih =>
    intro hidx x hreach
    have hidx2 := fun k (hk : k ≤ n) => hidx k (Nat.le_succ_of_le hk)
    obtain ⟨msg, hm⟩ := hidx (n + 1) (le_refl _)
    have hne : (n + 1 : Nat) ≠ 0 := by omega
    simp only [if_neg hne, Nat.add_sub_cancel] at hm
    rw [reachesC, reachesB] at hreach
    simp only [hm] at hreach
    simp only [List.any_cons, List.any_nil, Bool.or_false, Bool.or_eq_true,
      decide_eq_true_eq] at hreach
    rcases hreach with hreach | hreach
    · exact Or.inl ⟨n + 1, le_refl _, by omega⟩
    · rw [reachesB_stable hdec2 (F + 4 * n + 3) (F + 4 * (n + 1) + 3)
        (F + 4 * n + 3 + 1) x (by omega) (by omega)] at hreach
      rcases ih hidx2 x hreach with ⟨k, hk, hx⟩ | hreach2
      · exact Or.inl ⟨k, by omega, hx⟩
      · exact Or.inr hreach2

/-! ## C1: a fully successful replay appends exactly N commits -/

/-- C1: replaying a list of N single-parent commits (with SHAs, parent
SHAs and messages present, all referring to existing objects) on an
existing branch, with no primitive call failing, leaves the branch ref
on the last of exactly N new commits; the first-parent history of the
final head is the N new commits (newest first) followed by the
unchanged original history; the k-th new commit carries the message of
the k-th cherry-picked commit and has the previous new commit (the
original head for k = 0) as its sole parent; the pre-existing store is
untouched; and everything reachable from the final head is either a new
final commit or was already reachable from the original head — in
particular no sibling commit and no merge commit of any step is
reachable from the final branch head. -/
theorem c1_replay_appends_exactly (s0 : Remote) (o r : String)
    (branch : GBranch) (cs : List GCommit) (bn : String) (h0 rOld : Nat)
    (s2 : Remote)
    (hname : branch.name = some bn) (hsha : branch.commit.sha = some h0)
    (hOK : storeOK s0.commits s0.fresh = true)
    (hall : cs.all (fun c => pickable c s0.fresh) = true)
    (hlt : h0 < s0.fresh)
    (href0 : assoc (branchRefHeads ++ bn) s0.refs = some rOld)
    (hrun : CherryPickCommitsOnBranch s0 o r branch cs = (Res.ok (), s2)) :
    (cs = [] → s2.refs = s0.refs ∧ s2.commits = s0.commits) ∧
    (cs ≠ [] → assoc (branchRefHeads ++ bn) s2.refs =
      some (s0.fresh + 4 * (cs.length - 1) + 3)) ∧
    (∀ x, x < s0.fresh → assoc x s2.commits = assoc x s0.commits) ∧
    (∀ k, (hk : k < cs.length) → ∃ msg,
      (cs.get ⟨k, hk⟩).message = some msg ∧
      assoc (s0.fresh + 4 * k + 3) s2.commits =
        some ⟨msg, s0.fresh + 4 * k + 2,
          [if k = 0 then h0 else s0.fresh + 4 * (k - 1) + 3]⟩) ∧
    (cs ≠ [] →
      chainC s2.commits (s0.fresh + 4 * (cs.length - 1) + 3) =
        (((List.range cs.length).map (fun k => s0.fresh + 4 * k + 3)).reverse) ++
          chainC s0.commits h0) ∧
    (cs ≠ [] → ∀ x,
      reachesC s2.commits (s0.fresh + 4 * (cs.length - 1) + 3) x = true →
        x ∈ (List.range cs.length).map (fun k => s0.fresh + 4 * k + 3) ∨
          reachesC s0.commits h0 x = true) ∧
    (cs ≠ [] → ∀ k, k < cs.length →
      reachesC s2.commits (s0.fresh + 4 * (cs.length - 1) + 3)
        (s0.fresh + 4 * k) = false ∧
      reachesC s2.commits (s0.fresh + 4 * (cs.length - 1) + 3)
        (s0.fresh + 4 * k + 1) = false) := by
  simp only [CherryPickCommitsOnBranch, hname, hsha, getCommit,
    remoteGetCommit] at hrun
  cases hg : assoc h0 s0.commits with
  | none => rw [hg] at hrun; simp at hrun
  | some d0 =>
    rw [hg] at hrun
    simp only [] at hrun
    cases hloop : cherryPickLoop
        { s0 with log := s0.log ++ [Event.evGetCommit h0] } o r bn cs
        (commitOfData h0 d0) with
    | mk res s2x =>
      rw [hloop] at hrun
      cases res with
      | err e => simp at hrun
      | panicked m => simp at hrun
      | ok hret =>
        simp only [Prod.mk.injEq, Res.ok.injEq] at hrun
        have hs2 : s2 = s2x := hrun.2.symm
        subst hs2
        have hspec := cherryPickLoop_ok_spec o r bn cs
          { s0 with log := s0.log ++ [Event.evGetCommit h0] }
          (commitOfData h0 d0) hret h0 s2 hOK hall rfl hlt hloop
        obtain ⟨ihfresh, ihconf, ihnil, ihnonnil, ihassoc, ihOK, ihidx⟩ := hspec
        have hdec2 : parentsDec s2.commits := storeOK_parentsDec ihOK
        have hdec0 : parentsDec s0.commits := storeOK_parentsDec hOK
        refine ⟨?_, ?_, ihassoc, ihidx, ?_, ?_, ?_⟩
        · intro hnil
          obtain ⟨hs, _⟩ := ihnil hnil
          subst hs
          exact ⟨rfl, rfl⟩
        · intro hne
          obtain ⟨hrefs, _⟩ := ihnonnil hne
          rw [hrefs]
          exact assoc_setAssoc_self _ href0
        · intro hne
          have hlen : 1 ≤ cs.length := by
            cases cs with
            | nil => exact absurd rfl hne
            | cons a b => simp
          have hchain := chain_steps s2.commits s0.commits s0.fresh h0
            ihassoc hdec2 hdec0 hlt (cs.length - 1)
            (fun k hk => by
              obtain ⟨msg, _, hm⟩ := ihidx k (by omega)
              exact ⟨msg, hm⟩)
          rw [show cs.length - 1 + 1 = cs.length by omega] at hchain
          exact hchain
        · intro hne x hx
          have hlen : 1 ≤ cs.length := by
            cases cs with
            | nil => exact absurd rfl hne
            | cons a b => simp
          have hreach := reach_steps s2.commits s0.commits s0.fresh h0
            ihassoc hdec2 hdec0 hlt (cs.length - 1)
            (fun k hk => by
              obtain ⟨msg, _, hm⟩ := ihidx k (by omega)
              exact ⟨msg, hm⟩) x hx
          rcases hreach with ⟨k, hk, hxk⟩ | hold2
          · left
            rw [List.mem_map]
            exact ⟨k, by rw [List.mem_range]; omega, hxk.symm⟩
          · exact Or.inr hold2
        · intro hne k hk
          have hlen : 1 ≤ cs.length := by
            cases cs with
            | nil => exact absurd rfl hne
            | cons a b => simp
          have hmain : ∀ y, y = s0.fresh + 4 * k ∨ y = s0.fresh + 4 * k + 1 →
              reachesC s2.commits (s0.fresh + 4 * (cs.length - 1) + 3) y = false := by
            intro y hy
            rw [Bool.eq_false_iff]
            intro hcon
            have hreach := reach_steps s2.commits s0.commits s0.fresh h0
              ihassoc hdec2 hdec0 hlt (cs.length - 1)
              (fun j hj => by
                obtain ⟨msg, _, hm⟩ := ihidx j (by omega)
                exact ⟨msg, hm⟩) y hcon
            rcases hreach with ⟨j, hj, hyj⟩ | hold2
            · omega
            · have := reachesB_le hdec0 (h0 + 1) h0 y hold2
              omega
          exact ⟨hmain _ (Or.inl rfl), hmain _ (Or.inr rfl)⟩

/-- The final state of the successful two-commit replay of the shared
scenario. -/
def exRunC1 : Remote :=
  (CherryPickCommitsOnBranch exRemote ("org") ("repo") exRelBranch
    [exPick1, exPick2]).2

/-- Witness for C1: the two-commit replay of the shared scenario. -/
theorem c1_witness :
    (([exPick1, exPick2] : List GCommit) = [] →
      exRunC1.refs = exRemote.refs ∧ exRunC1.commits = exRemote.commits) ∧
    (([exPick1, exPick2] : List GCommit) ≠ [] →
      assoc (branchRefHeads ++ "rel") exRunC1.refs =
        some (exRemote.fresh + 4 * (([exPick1, exPick2] : List GCommit).length - 1) + 3)) ∧
    (∀ x, x < exRemote.fresh →
      assoc x exRunC1.commits = assoc x exRemote.commits) ∧
    (∀ k, (hk : k < ([exPick1, exPick2] : List GCommit).length) → ∃ msg,
      (([exPick1, exPick2] : List GCommit).get ⟨k, hk⟩).message = some msg ∧
      assoc (exRemote.fresh + 4 * k + 3) exRunC1.commits =
        some ⟨msg, exRemote.fresh + 4 * k + 2,
          [if k = 0 then 10 else exRemote.fresh + 4 * (k - 1) + 3]⟩) ∧
    (([exPick1, exPick2] : List GCommit) ≠ [] →
      chainC exRunC1.commits
          (exRemote.fresh + 4 * (([exPick1, exPick2] : List GCommit).length - 1) + 3) =
        (((List.range ([exPick1, exPick2] : List GCommit).length).map
          (fun k => exRemote.fresh + 4 * k + 3)).reverse) ++
          chainC exRemote.commits 10) ∧
    (([exPick1, exPick2] : List GCommit) ≠ [] → ∀ x,
      reachesC exRunC1.commits
          (exRemote.fresh + 4 * (([exPick1, exPick2] : List GCommit).length - 1) + 3) x = true →
        x ∈ (List.range ([exPick1, exPick2] : List GCommit).length).map
            (fun k => exRemote.fresh + 4 * k + 3) ∨
          reachesC exRemote.commits 10 x = true) ∧
    (([exPick1, exPick2] : List GCommit) ≠ [] →
      ∀ k, k < ([exPick1, exPick2] : List GCommit).length →
      reachesC exRunC1.commits
        (exRemote.fresh + 4 * (([exPick1, exPick2] : List GCommit).length - 1) + 3)
        (exRemote.fresh + 4 * k) = false ∧
      reachesC exRunC1.commits
        (exRemote.fresh + 4 * (([exPick1, exPick2] : List GCommit).length - 1) + 3)
        (exRemote.fresh + 4 * k + 1) = false) :=
  c1_replay_appends_exactly exRemote ("org") ("repo") exRelBranch
    [exPick1, exPick2] ("rel") 10 10 exRunC1 rfl rfl (by decide) (by decide)
    (by decide) rfl rfl

/-! ## The pagination loop collects the whole listing -/

theorem chainFrom_length_le (store : List (Nat × CommitData)) :
    ∀ (f x : Nat), (chainFrom store f x).length ≤ f := by
  intro f
  induction f with
  | zero => intro x; simp [chainFrom]
  | succ g ih =>
    intro x
    rw [chainFrom]
    cases ha : assoc x store with
    | none => simp
    | some d =>
      cases hps : d.parents with
      | nil => simp [hps]
      | cons q qs =>
        simp only [hps, List.length_cons]
        have := ih q
        omega

theorem getBranchCommitsLoop_ok (bn : String) (headSha : Nat)
    (store : List (Nat × CommitData)) :
    ∀ (fuel q : Nat) (acc : List RepoCommit) (s : Remote),
      s.commits = store →
      assoc (branchRefHeads ++ bn) s.refs = some headSha →
      acc = ((chainFrom store store.length headSha).map
        (fun x => RepoCommit.mk (some x))).take ((max 1 q - 1) * perPage) →
      ((chainFrom store store.length headSha).map
        (fun x => RepoCommit.mk (some x))).length ≤
        (max 1 q - 1) * perPage + fuel * perPage →
      1 ≤ fuel →
      ∃ evs, getBranchCommitsLoop s bn acc q fuel =
        (Res.ok ((chainFrom store store.length headSha).map
          (fun x => RepoCommit.mk (some x))), { s with log := s.log ++ evs }) ∧
        ∀ e ∈ evs, ∃ pg, e = Event.evListCommits bn pg := by
  intro fuel
  induction fuel with
  | zero => intro q acc s _ _ _ _ hf; omega
  | succ f ih =>
    intro q acc s hsc href hacc hlen _
    have hmaxsucc : ∀ w : Nat, max 1 (w + 1) = w + 1 :=
      fun w => Nat.max_eq_right (by omega)
    rw [getBranchCommitsLoop, remoteListCommits]
    simp only [hsc, href]
    set allc := (chainFrom store store.length headSha).map
      (fun x => RepoCommit.mk (some x)) with hallc
    set m := max 1 q with hm
    have hm1 : 1 ≤ m := le_max_left 1 q
    by_cases hnext : m * perPage < allc.length
    · simp only [if_pos hnext]
      have hacc2 : acc ++ (allc.drop ((m - 1) * perPage)).take perPage =
          allc.take ((max 1 (m + 1) - 1) * perPage) := by
        rw [hmaxsucc m]
        simp only [Nat.add_sub_cancel]
        rw [hacc]
        rw [show m * perPage = (m - 1) * perPage + perPage by
          simp only [perPage]; omega]
        exact (List.take_add allc _ _).symm
      have hlen2 : allc.length ≤ (max 1 (m + 1) - 1) * perPage + f * perPage := by
        rw [hmaxsucc m]
        simp only [Nat.add_sub_cancel]
        simp only [perPage] at hlen ⊢
        omega
      have hf2 : 1 ≤ f := by
        by_contra hc
        have hf0 : f = 0 := by omega
        subst hf0
        simp only [perPage] at hlen hnext
        omega
      obtain ⟨evs, heq, hev⟩ := ih (m + 1)
        (acc ++ (allc.drop ((m - 1) * perPage)).take perPage)
        { s with log := s.log ++ [Event.evListCommits bn q] }
        hsc href hacc2 hlen2 hf2
      refine ⟨Event.evListCommits bn q :: evs, ?_, ?_⟩
      · rw [if_neg (show ¬(m + 1 = 0) by omega)]
        rw [hsc] at heq
        rw [heq]
        simp
      · intro e he
        rcases List.mem_cons.mp he with he | he
        · exact ⟨q, he⟩
        · exact hev e he
    · simp only [if_neg hnext]
      have hfull : acc ++ (allc.drop ((m - 1) * perPage)).take perPage = allc := by
        rw [hacc]
        rw [show allc.take ((m - 1) * perPage) ++
            (allc.drop ((m - 1) * perPage)).take perPage =
            allc.take ((m - 1) * perPage + perPage) from
          (List.take_add allc _ _).symm]
        apply List.take_of_length_le
        simp only [perPage] at hnext ⊢
        omega
      refine ⟨[Event.evListCommits bn q], ?_, ?_⟩
      · simp [hfull, hsc]
      · intro e he
        rcases List.mem_cons.mp he with he | he
        · exact ⟨q, he⟩
        · simp at he

/-! ## The nested matching loops of GetBranchCommits -/

theorem gbcInner_no_match (o r : String) (rc : RepoCommit) :
    ∀ (diff : List RepoCommit) (s : Remote) (acc : List GCommit),
      rc.getSHA ∉ diff.map RepoCommit.getSHA →
      gbcInner s o r rc diff acc = (Res.ok acc, s) := by
  intro diff
  induction diff with
  | nil => intro s acc _; rw [gbcInner]
  | cons d rest ih =>
    intro s acc hmem
    rw [gbcInner]
    rw [if_neg (show ¬(d.getSHA = rc.getSHA) from fun hc =>
      hmem (by rw [List.map_cons]; exact hc ▸ List.mem_cons_self _ _))]
    exact ih s acc (fun hc => hmem (by rw [List.map_cons]; exact List.mem_cons_of_mem _ hc))

theorem gbcInner_found (o r : String) (rc : RepoCommit) (dta : CommitData) :
    ∀ (diff : List RepoCommit) (s : Remote) (acc : List GCommit),
      (diff.map RepoCommit.getSHA).Nodup →
      rc.getSHA ∈ diff.map RepoCommit.getSHA →
      assoc rc.getSHA s.commits = some dta →
      (dta.parents.length = 1 →
        gbcInner s o r rc diff acc =
          (Res.ok (acc ++ [commitOfData rc.getSHA dta]),
            { s with log := s.log ++ [Event.evGetCommit rc.getSHA] })) ∧
      (dta.parents.length ≠ 1 →
        gbcInner s o r rc diff acc =
          (Res.err (GoErr.errorf ("merge commits are not supported.")),
            { s with log := s.log ++ [Event.evGetCommit rc.getSHA] })) := by
  intro diff
  induction diff with
  | nil => intro s acc _ hmem _; simp at hmem
  | cons d rest ih =>
    intro s acc hnodup hmem hdta
    by_cases heq : d.getSHA = rc.getSHA
    · have hrest : rc.getSHA ∉ rest.map RepoCommit.getSHA := by
        rw [List.map_cons, List.nodup_cons] at hnodup
        rw [heq] at hnodup
        exact hnodup.1
      have hparlen : (commitOfData rc.getSHA dta).parents.length = dta.parents.length := by
        simp [commitOfData, GCommit.parents]
      constructor
      · intro hone
        rw [gbcInner, if_pos heq]
        simp only [getCommit, remoteGetCommit, hdta]
        rw [if_neg (by rw [hparlen]; omega)]
        exact gbcInner_no_match o r rc rest _ _ hrest
      · intro hne
        rw [gbcInner, if_pos heq]
        simp only [getCommit, remoteGetCommit, hdta]
        rw [if_pos (by rw [hparlen]; exact hne)]
    · have hmem2 : rc.getSHA ∈ rest.map RepoCommit.getSHA := by
        rw [List.map_cons] at hmem
        rcases List.mem_cons.mp hmem with hc | hc
        · exact absurd hc.symm heq
        · exact hc
      have hnodup2 : (rest.map RepoCommit.getSHA).Nodup := by
        rw [List.map_cons, List.nodup_cons] at hnodup
        exact hnodup.2
      rw [gbcInner, if_neg heq]
      exact ih s acc hnodup2 hmem2 hdta

theorem gbcOuter_ok (o r : String) (diff : List RepoCommit)
    (hnodup : (diff.map RepoCommit.getSHA).Nodup) :
    ∀ (rcs : List RepoCommit) (s : Remote) (acc : List GCommit),
      (∀ rc ∈ rcs, rc.getSHA ∈ diff.map RepoCommit.getSHA →
        ∃ dta, assoc rc.getSHA s.commits = some dta ∧ dta.parents.length = 1) →
      ∃ l evs, gbcOuter s o r rcs diff acc = (Res.ok (acc ++ l),
          { s with log := s.log ++ evs }) ∧
        l.map GCommit.sha = ((rcs.filter
          (fun rc => decide (rc.getSHA ∈ diff.map RepoCommit.getSHA))).map
            (fun rc => some rc.getSHA)) ∧
        (∀ g ∈ l, ∃ sh dta, g = commitOfData sh dta ∧
          assoc sh s.commits = some dta) ∧
        (∀ e ∈ evs, ∃ sh, e = Event.evGetCommit sh) := by
  intro rcs
  induction rcs with
  | nil =>
    intro s acc _
    refine ⟨[], [], ?_, by simp, by simp, by simp⟩
    rw [gbcOuter]
    simp
  | cons rc rest ih =>
    intro s acc hlook
    by_cases hmem : rc.getSHA ∈ diff.map RepoCommit.getSHA
    · obtain ⟨dta, hdta, hone⟩ := hlook rc (List.mem_cons_self _ _) hmem
      have hfound := (gbcInner_found o r rc dta diff s acc hnodup hmem hdta).1 hone
      rw [gbcOuter]
      simp only [hfound]
      obtain ⟨l, evs, heq, hshas, hdata, hev⟩ := ih
        { s with log := s.log ++ [Event.evGetCommit rc.getSHA] }
        (acc ++ [commitOfData rc.getSHA dta])
        (fun rc2 h2 hm2 => hlook rc2 (List.mem_cons_of_mem _ h2) hm2)
      refine ⟨commitOfData rc.getSHA dta :: l, Event.evGetCommit rc.getSHA :: evs,
        ?_, ?_, ?_, ?_⟩
      · rw [heq]
        simp
      · rw [List.filter_cons, if_pos (by simpa using hmem)]
        simp only [List.map_cons]
        rw [hshas]
        simp [commitOfData, GCommit.sha]
      · intro g hg
        rcases List.mem_cons.mp hg with hg | hg
        · exact ⟨rc.getSHA, dta, hg, hdta⟩
        · exact hdata g hg
      · intro e he
        rcases List.mem_cons.mp he with he | he
        · exact ⟨rc.getSHA, he⟩
        · exact hev e he
    · have hin := gbcInner_no_match o r rc diff s acc hmem
      rw [gbcOuter]
      simp only [hin]
      obtain ⟨l, evs, heq, hshas, hdata, hev⟩ := ih s acc
        (fun rc2 h2 hm2 => hlook rc2 (List.mem_cons_of_mem _ h2) hm2)
      refine ⟨l, evs, heq, ?_, hdata, hev⟩
      rw [List.filter_cons, if_neg (by simpa using hmem)]
      exact hshas

theorem gbcOuter_err (o r : String) (diff : List RepoCommit)
    (hnodup : (diff.map RepoCommit.getSHA).Nodup) :
    ∀ (rcs : List RepoCommit) (s : Remote) (acc : List GCommit),
      (∀ rc ∈ rcs, rc.getSHA ∈ diff.map RepoCommit.getSHA →
        ∃ dta, assoc rc.getSHA s.commits = some dta) →
      (∃ rc ∈ rcs, rc.getSHA ∈ diff.map RepoCommit.getSHA ∧
        ∃ dta, assoc rc.getSHA s.commits = some dta ∧ dta.parents.length ≠ 1) →
      (gbcOuter s o r rcs diff acc).1 =
        Res.err (GoErr.errorf ("merge commits are not supported.")) := by
  intro rcs
  induction rcs with
  | nil =>
    intro s acc _ hbad
    obtain ⟨rc, hrc, _⟩ := hbad
    simp at hrc
  | cons rc rest ih =>
    intro s acc hlook hbad
    by_cases hmem : rc.getSHA ∈ diff.map RepoCommit.getSHA
    · obtain ⟨dta, hdta⟩ := hlook rc (List.mem_cons_self _ _) hmem
      by_cases hone : dta.parents.length = 1
      · have hfound := (gbcInner_found o r rc dta diff s acc hnodup hmem hdta).1 hone
        rw [gbcOuter]
        simp only [hfound]
        apply ih
        · intro rc2 h2 hm2
          exact hlook rc2 (List.mem_cons_of_mem _ h2) hm2
        · obtain ⟨rc0, hrc0, hm0, dta0, hdta0, hbad0⟩ := hbad
          rcases List.mem_cons.mp hrc0 with hrc0 | hrc0
          · subst hrc0
            rw [hdta] at hdta0
            exact absurd (Option.some.inj hdta0 ▸ hone) hbad0
          · exact ⟨rc0, hrc0, hm0, dta0, hdta0, hbad0⟩
      · have hfound := (gbcInner_found o r rc dta diff s acc hnodup hmem hdta).2 hone
        rw [gbcOuter]
        simp only [hfound]
    · have hin := gbcInner_no_match o r rc diff s acc hmem
      rw [gbcOuter]
      simp only [hin]
      apply ih
      · intro rc2 h2 hm2
        exact hlook rc2 (List.mem_cons_of_mem _ h2) hm2
      · obtain ⟨rc0, hrc0, hm0, rest0⟩ := hbad
        rcases List.mem_cons.mp hrc0 with hrc0 | hrc0
        · subst hrc0
          exact absurd hm0 hmem
        · exact ⟨rc0, hrc0, hm0, rest0⟩

/-- Unfolding of GetBranchCommits up to the outer matching loop, when
both branch refs resolve: the listing succeeds (pagination collects the
whole branch chain, newest first) and the comparison against master
returns the branch-minus-master SHAs, oldest first. -/
theorem GetBranchCommits_unfold (s : Remote) (o r bn : String)
    (bhead mhead : Nat)
    (hrefb : assoc (branchRefHeads ++ bn) s.refs = some bhead)
    (hrefm : assoc (branchRefHeads ++ ("master")) s.refs = some mhead) :
    ∃ s2 evs,
      GetBranchCommits s o r bn =
        gbcOuter s2 o r
          ((chainFrom s.commits s.commits.length bhead).map
            (fun x => RepoCommit.mk (some x)))
          ((((chainFrom s.commits s.commits.length bhead).filter
            (fun x => x ∉ chainFrom s.commits s.commits.length mhead)).reverse).map
            (fun x => RepoCommit.mk (some x))) [] ∧
      s2.commits = s.commits ∧ s2.refs = s.refs ∧ s2.conflicts = s.conflicts ∧
      s2.fresh = s.fresh ∧ s2.log = s.log ++ evs ∧
      Event.evCompare ("master") bn ∈ evs ∧
      (∀ e ∈ evs, (∃ pg, e = Event.evListCommits bn pg) ∨
        e = Event.evCompare ("master") bn) := by
  have hloop := getBranchCommitsLoop_ok bn bhead s.commits
    (s.commits.length + 2) 0 [] s rfl hrefb (by simp) ?_ (by omega)
  · obtain ⟨evs1, heq1, hev1⟩ := hloop
    rw [GetBranchCommits, getBranchCommits]
    simp only [heq1, remoteCompare, hrefb, hrefm]
    refine ⟨_, evs1 ++ [Event.evCompare ("master") bn], rfl, rfl, rfl, rfl, rfl, ?_, ?_, ?_⟩
    · simp
    · simp
    · intro e he
      rcases List.mem_append.mp he with he | he
      · exact Or.inl (hev1 e he)
      · simp at he
        exact Or.inr he
  · have hle := chainFrom_length_le s.commits s.commits.length bhead
    simp only [List.length_map, perPage]
    omega

/-! ## The resolver only appends to the log -/

theorem gbcInner_log (o r : String) (rc : RepoCommit) :
    ∀ (diff : List RepoCommit) (s : Remote) (acc : List GCommit),
      ∃ evs, (gbcInner s o r rc diff acc).2 = { s with log := s.log ++ evs } ∧
        ∀ e ∈ evs, ∃ sh, e = Event.evGetCommit sh := by
  intro diff
  induction diff with
  | nil =>
    intro s acc
    refine ⟨[], ?_, by simp⟩
    rw [gbcInner]
    simp
  | cons d rest ih =>
    intro s acc
    rw [gbcInner]
    by_cases heq : d.getSHA = rc.getSHA
    · rw [if_pos heq]
      cases hga : assoc rc.getSHA s.commits with
      | none =>
        simp only [getCommit, remoteGetCommit, hga]
        exact ⟨[Event.evGetCommit rc.getSHA], rfl, by simp⟩
      | some dta =>
        simp only [getCommit, remoteGetCommit, hga]
        have hparlen : (commitOfData rc.getSHA dta).parents.length =
            dta.parents.length := by
          simp [commitOfData, GCommit.parents]
        by_cases hone : dta.parents.length = 1
        · rw [if_neg (by rw [hparlen]; omega)]
          obtain ⟨evs, hst, hev⟩ := ih
            { s with log := s.log ++ [Event.evGetCommit rc.getSHA] }
            (acc ++ [commitOfData rc.getSHA dta])
          refine ⟨Event.evGetCommit rc.getSHA :: evs, ?_, ?_⟩
          · rw [hst]
            simp
          · intro e he
            rcases List.mem_cons.mp he with he | he
            · exact ⟨rc.getSHA, he⟩
            · exact hev e he
        · rw [if_pos (by rw [hparlen]; exact hone)]
          exact ⟨[Event.evGetCommit rc.getSHA], rfl, by simp⟩
    · rw [if_neg heq]
      exact ih s acc

theorem gbcOuter_log (o r : String) (diff : List RepoCommit) :
    ∀ (rcs : List RepoCommit) (s : Remote) (acc : List GCommit),
      ∃ evs, (gbcOuter s o r rcs diff acc).2 = { s with log := s.log ++ evs } ∧
        ∀ e ∈ evs, ∃ sh, e = Event.evGetCommit sh := by
  intro rcs
  induction rcs with
  | nil =>
    intro s acc
    refine ⟨[], ?_, by simp⟩
    rw [gbcOuter]
    simp
  | cons rc rest ih =>
    intro s acc
    rw [gbcOuter]
    obtain ⟨evs1, hst1, hev1⟩ := gbcInner_log o r rc diff s acc
    cases hin : gbcInner s o r rc diff acc with
    | mk res1 s1 =>
      have hs1 : s1 = { s with log := s.log ++ evs1 } := by
        rw [hin] at hst1
        exact hst1
      cases res1 with
      | err e => exact ⟨evs1, hs1, hev1⟩
      | panicked m => exact ⟨evs1, hs1, hev1⟩
      | ok acc1 =>
        obtain ⟨evs2, hst2, hev2⟩ := ih s1 acc1
        refine ⟨evs1 ++ evs2, ?_, ?_⟩
        · rw [hst2, hs1]
          simp
        · intro e he
          rcases List.mem_append.mp he with he | he
          · exact hev1 e he
          · exact hev2 e he

theorem getBranchCommitsLoop_log (bn : String) :
    ∀ (fuel q : Nat) (acc : List RepoCommit) (s : Remote),
      ∃ evs, (getBranchCommitsLoop s bn acc q fuel).2 =
          { s with log := s.log ++ evs } ∧
        ∀ e ∈ evs, ∃ pg, e = Event.evListCommits bn pg := by
  intro fuel
  induction fuel with
  | zero =>
    intro q acc s
    refine ⟨[], ?_, by simp⟩
    rw [getBranchCommitsLoop]
    simp
  | succ f ih =>
    intro q acc s
    rw [getBranchCommitsLoop, remoteListCommits]
    cases href : assoc (branchRefHeads ++ bn) s.refs with
    | none =>
      simp only [href]
      exact ⟨[Event.evListCommits bn q], rfl, by simp⟩
    | some headSha =>
      simp only [href]
      by_cases hnext : max 1 q * perPage <
          ((chainFrom s.commits s.commits.length headSha).map
            (fun x => RepoCommit.mk (some x))).length
      · rw [if_pos hnext, if_neg (show ¬(max 1 q + 1 = 0) by omega)]
        obtain ⟨evs, hst, hev⟩ := ih (max 1 q + 1) _
          { s with log := s.log ++ [Event.evListCommits bn q] }
        refine ⟨Event.evListCommits bn q :: evs, ?_, ?_⟩
        · rw [hst]
          simp
        · intro e he
          rcases List.mem_cons.mp he with he | he
          · exact ⟨q, he⟩
          · exact hev e he
      · rw [if_neg hnext, if_pos rfl]
        exact ⟨[Event.evListCommits bn q], rfl, by simp⟩

/-! ## C8: the mainline is the fixed constant master -/

/-- C8: in every invocation of GetBranchCommits, every comparison call
issued to the remote uses the fixed string master as its base,
regardless of the arguments of the function; and whenever the named
branch exists, the comparison of master against that branch is in fact
issued.  No argument can select a different mainline. -/
theorem c8_mainline_fixed_master (s : Remote) (o r bn : String) :
    ∃ evs, (GetBranchCommits s o r bn).2 = { s with log := s.log ++ evs } ∧
      (∀ e ∈ evs, ∀ b hd2, e = Event.evCompare b hd2 →
        b = ("master") ∧ hd2 = bn) ∧
      (∀ bhead, assoc (branchRefHeads ++ bn) s.refs = some bhead →
        Event.evCompare ("master") bn ∈ evs) := by
  rw [GetBranchCommits]
  obtain ⟨evs1, hst1, hev1⟩ := getBranchCommitsLoop_log bn
    (s.commits.length + 2) 0 [] s
  cases hlist : getBranchCommits s o r bn with
  | mk res1 s1 =>
    have hs1 : s1 = { s with log := s.log ++ evs1 } := by
      rw [getBranchCommits] at hlist
      rw [hlist] at hst1
      exact hst1
    have hcompat : ∀ e ∈ evs1, ∀ b hd2, ¬(e = Event.evCompare b hd2) := by
      intro e he b hd2 hc
      obtain ⟨pg, hpg⟩ := hev1 e he
      rw [hpg] at hc
      simp at hc
    cases res1 with
    | err e =>
      refine ⟨evs1, by rw [hs1], fun e2 he2 b hd2 hc =>
        absurd hc (hcompat e2 he2 b hd2), ?_⟩
      intro bhead hrefb
      exfalso
      have hbound : ((chainFrom s.commits s.commits.length bhead).map
          (fun x => RepoCommit.mk (some x))).length ≤
          (max 1 0 - 1) * perPage + (s.commits.length + 2) * perPage := by
        have hle := chainFrom_length_le s.commits s.commits.length bhead
        simp only [List.length_map, perPage]
        omega
      obtain ⟨evs2, heq2, _⟩ := getBranchCommitsLoop_ok bn bhead s.commits
        (s.commits.length + 2) 0 [] s rfl hrefb (by simp) hbound (by omega)
      rw [getBranchCommits] at hlist
      rw [hlist] at heq2
      simp at heq2
    | panicked m =>
      refine ⟨evs1, by rw [hs1], fun e2 he2 b hd2 hc =>
        absurd hc (hcompat e2 he2 b hd2), ?_⟩
      intro bhead hrefb
      exfalso
      have hbound : ((chainFrom s.commits s.commits.length bhead).map
          (fun x => RepoCommit.mk (some x))).length ≤
          (max 1 0 - 1) * perPage + (s.commits.length + 2) * perPage := by
        have hle := chainFrom_length_le s.commits s.commits.length bhead
        simp only [List.length_map, perPage]
        omega
      obtain ⟨evs2, heq2, _⟩ := getBranchCommitsLoop_ok bn bhead s.commits
        (s.commits.length + 2) 0 [] s rfl hrefb (by simp) hbound (by omega)
      rw [getBranchCommits] at hlist
      rw [hlist] at heq2
      simp at heq2
    | ok rcs =>
      simp only [remoteCompare]
      have hs1refs : s1.refs = s.refs := by rw [hs1]
      cases hrm : assoc (branchRefHeads ++ ("master")) s1.refs with
      | none =>
        simp only [hrm]
        refine ⟨evs1 ++ [Event.evCompare ("master") bn], ?_, ?_, ?_⟩
        · rw [hs1]
          simp
        · intro e2 he2 b hd2 hc
          rcases List.mem_append.mp he2 with he2 | he2
          · exact absurd hc (hcompat e2 he2 b hd2)
          · simp at he2
            rw [he2] at hc
            simp at hc
            exact ⟨hc.1.symm, hc.2.symm⟩
        · intro bhead _
          simp
      | some mhead =>
        cases hrb : assoc (branchRefHeads ++ bn) s1.refs with
        | none =>
          simp only [hrb]
          refine ⟨evs1 ++ [Event.evCompare ("master") bn], ?_, ?_, ?_⟩
          · rw [hs1]
            simp
          · intro e2 he2 b hd2 hc
            rcases List.mem_append.mp he2 with he2 | he2
            · exact absurd hc (hcompat e2 he2 b hd2)
            · simp at he2
              rw [he2] at hc
              simp at hc
              exact ⟨hc.1.symm, hc.2.symm⟩
          · intro bhead _
            simp
        | some bhead =>
          simp only [hrb]
          obtain ⟨evs3, hst3, hev3⟩ := gbcOuter_log o r _ _
            { s1 with log := s1.log ++ [Event.evCompare ("master") bn] } []
          refine ⟨evs1 ++ [Event.evCompare ("master") bn] ++ evs3, ?_, ?_, ?_⟩
          · rw [hst3, hs1]
            simp
          · intro e2 he2 b hd2 hc
            rcases List.mem_append.mp he2 with he2 | he2
            · rcases List.mem_append.mp he2 with he2 | he2
              · exact absurd hc (hcompat e2 he2 b hd2)
              · simp at he2
                rw [he2] at hc
                simp at hc
                exact ⟨hc.1.symm, hc.2.symm⟩
            · obtain ⟨sh, hsh⟩ := hev3 e2 he2
              rw [hsh] at hc
              simp at hc
          · intro bhead2 _
            simp

/-! ## C5: any multi-parent commit in the difference fails the resolution -/

theorem map_mk_getSHA (L : List Nat) :
    (L.map (fun x => RepoCommit.mk (some x))).map RepoCommit.getSHA = L := by
  rw [List.map_map]
  have : (RepoCommit.getSHA ∘ fun x => RepoCommit.mk (some x)) = id := by
    funext x
    rfl
  rw [this, List.map_id]

/-- C5: if any commit that is on the branch but absent from master has
a parent count different from one, GetBranchCommits fails with the
merge-commits-unsupported error, and because the error return carries
no list, no partial commit list is returned. -/
theorem c5_merge_commit_rejected (s : Remote) (o r bn : String)
    (bhead mhead : Nat)
    (hrefb : assoc (branchRefHeads ++ bn) s.refs = some bhead)
    (hrefm : assoc (branchRefHeads ++ ("master")) s.refs = some mhead)
    (hnodup : (chainFrom s.commits s.commits.length bhead).Nodup)
    (hlook : ∀ x ∈ chainFrom s.commits s.commits.length bhead,
      x ∉ chainFrom s.commits s.commits.length mhead →
      ∃ dta, assoc x s.commits = some dta)
    (hbad : ∃ x, x ∈ chainFrom s.commits s.commits.length bhead ∧
      x ∉ chainFrom s.commits s.commits.length mhead ∧
      ∃ dta, assoc x s.commits = some dta ∧ dta.parents.length ≠ 1) :
    (GetBranchCommits s o r bn).1 =
      Res.err (GoErr.errorf ("merge commits are not supported.")) := by
  obtain ⟨s2, evs, heq, hsc, _, _, _, _, _, _⟩ :=
    GetBranchCommits_unfold s o r bn bhead mhead hrefb hrefm
  rw [heq]
  apply gbcOuter_err
  · rw [map_mk_getSHA]
    exact List.nodup_reverse.mpr (List.Nodup.filter _ hnodup)
  · intro rc hrc hm
    obtain ⟨x, hx, hrc2⟩ := List.mem_map.mp hrc
    subst hrc2
    rw [map_mk_getSHA] at hm
    have hgs : (RepoCommit.mk (some x)).getSHA = x := rfl
    rw [hgs] at hm ⊢
    rw [List.mem_reverse, List.mem_filter] at hm
    have hnm : x ∉ chainFrom s.commits s.commits.length mhead := by
      simpa using hm.2
    obtain ⟨dta, hdta⟩ := hlook x hx hnm
    exact ⟨dta, by rw [hsc]; exact hdta⟩
  · obtain ⟨x, hx, hnm, dta, hdta, hbadlen⟩ := hbad
    refine ⟨RepoCommit.mk (some x), List.mem_map.mpr ⟨x, hx, rfl⟩, ?_, dta, ?_, hbadlen⟩
    · rw [map_mk_getSHA]
      have hgs : (RepoCommit.mk (some x)).getSHA = x := rfl
      rw [hgs, List.mem_reverse, List.mem_filter]
      exact ⟨hx, by simpa using hnm⟩
    · have hgs : (RepoCommit.mk (some x)).getSHA = x := rfl
      rw [hgs, hsc]
      exact hdta

/-- A store whose feature branch contains a two-parent merge commit. -/
def exMergeRemote : Remote :=
  { commits := [(2, ⟨"merge it", 102, [1, 0]⟩), (1, ⟨"Fix bug", 101, [0]⟩),
      (0, ⟨"root", 100, []⟩)]
    refs := [("refs/heads/master", 0), ("refs/heads/feature", 2)]
    conflicts := [], fresh := 3, log := [] }

/-- Witness for C5: resolving a branch holding a two-parent commit
fails with the merge-commits-unsupported error. -/
theorem c5_witness :
    (GetBranchCommits exMergeRemote ("org") ("repo") ("feature")).1 =
      Res.err (GoErr.errorf ("merge commits are not supported.")) :=
  c5_merge_commit_rejected exMergeRemote ("org") ("repo") ("feature") 2 0
    rfl rfl (by decide)
    (by
      intro x hx hnx
      have hch : chainFrom exMergeRemote.commits exMergeRemote.commits.length 2 =
          [2, 1, 0] := by decide
      have hcm : chainFrom exMergeRemote.commits exMergeRemote.commits.length 0 =
          [0] := by decide
      rw [hch] at hx
      rw [hcm] at hnx
      fin_cases hx
      · exact ⟨⟨"merge it", 102, [1, 0]⟩, rfl⟩
      · exact ⟨⟨"Fix bug", 101, [0]⟩, rfl⟩
      · exact absurd (List.mem_singleton.mpr rfl) hnx)
    ⟨2, by decide, by decide, ⟨"merge it", 102, [1, 0]⟩, rfl, by decide⟩

/-! ## Linear-chain stores for the resolver ordering claim -/

/-- Build a linear history from a list of (sha, message, tree) triples,
newest first: each commit has the next entry as its only parent and the
last entry is a root commit. -/
def mkChain : List (Nat × String × Nat) → List (Nat × CommitData)
  | [] => []
  | (sha, msg, t) :: rest =>
    (sha, ⟨msg, t, match rest with
      | [] => []
      | (p, _, _) :: _ => [p]⟩) :: mkChain rest

theorem assoc_mkChain (x : Nat) (m : String) (t : Nat) :
    ∀ (pre post : List (Nat × String × Nat)),
      ((pre ++ (x, m, t) :: post).map (fun e => e.1)).Nodup →
      assoc x (mkChain (pre ++ (x, m, t) :: post)) =
        some ⟨m, t, match post with
          | [] => []
          | (p, _, _) :: _ => [p]⟩ := by
  intro pre
  induction pre with
  | nil =>
    intro post _
    rw [List.nil_append]
    simp only [mkChain]
    rw [assoc_cons_self]
  | cons y pre ih =>
    intro post hnodup
    obtain ⟨ya, yb, yc⟩ := y
    rw [List.cons_append]
    simp only [mkChain]
    rw [assoc_cons_ne]
    · apply ih
      simp only [List.cons_append, List.map_cons, List.nodup_cons] at hnodup
      exact hnodup.2
    · simp only [List.cons_append, List.map_cons, List.nodup_cons] at hnodup
      intro heq
      apply hnodup.1
      simp only [List.map_append, List.map_cons]
      subst heq
      exact List.mem_append.mpr (Or.inr (List.mem_cons_self _ _))

theorem chainFrom_mkChain :
    ∀ (post pre : List (Nat × String × Nat)) (x : Nat) (m : String) (t : Nat)
      (f : Nat),
      (((pre ++ (x, m, t) :: post).map (fun e => e.1)).Nodup) →
      post.length + 1 ≤ f →
      chainFrom (mkChain (pre ++ (x, m, t) :: post)) f x =
        ((x, m, t) :: post).map (fun e => e.1) := by
  intro post
  induction post with
  | nil =>
    intro pre x m t f hnodup hf
    cases f with
    | zero => omega
    | succ g =>
      rw [chainFrom, assoc_mkChain x m t pre [] hnodup]
      simp
  | cons y post2 ih =>
    intro pre x m t f hnodup hf
    obtain ⟨ya, yb, yc⟩ := y
    cases f with
    | zero => omega
    | succ g =>
      rw [chainFrom, assoc_mkChain x m t pre ((ya, yb, yc) :: post2) hnodup]
      have hfull2 : pre ++ (x, m, t) :: (ya, yb, yc) :: post2 =
          (pre ++ [(x, m, t)]) ++ (ya, yb, yc) :: post2 := by
        simp
      have hrec := ih (pre ++ [(x, m, t)]) ya yb yc g
        (by rw [← hfull2]; exact hnodup)
        (by simp only [List.length_cons] at hf; omega)
      rw [← hfull2] at hrec
      simp only [hrec]
      simp

theorem mkChain_length : ∀ (L : List (Nat × String × Nat)),
    (mkChain L).length = L.length := by
  intro L
  induction L with
  | nil => rfl
  | cons e rest ih =>
    obtain ⟨a, b, c⟩ := e
    simp only [mkChain, List.length_cons, ih]

theorem filter_disjoint_append (l1 l2 : List Nat)
    (h : ∀ a ∈ l1, a ∉ l2) :
    (l1 ++ l2).filter (fun x => x ∉ l2) = l1 := by
  rw [List.filter_append]
  have h1 : l1.filter (fun x => x ∉ l2) = l1 :=
    List.filter_eq_self.mpr (fun a ha => by simp [h a ha])
  have h2 : l2.filter (fun x => x ∉ l2) = [] :=
    List.filter_eq_nil_iff.mpr (fun a ha => by simp [ha])
  rw [h1, h2, List.append_nil]

/-! ## C2: order of the resolved commit set -/

/-- C2 counterexample: on the shared scenario the feature branch has
commits 1 then 2 on top of master (commit 2 the newest; commit 1 is the
oldest unmerged commit, as the comparison — oldest first — shows), yet
GetBranchCommits returns commit 2 first: the returned order is newest
first, not oldest first, and the first element is not the oldest
unmerged commit. -/
theorem c2_counterexample :
    (GetBranchCommits exRemote ("org") ("repo") ("feature")).1 =
      Res.ok [commitOfData 2 ⟨"Add test", 102, [1]⟩,
        commitOfData 1 ⟨"Fix bug", 101, [0]⟩] ∧
    (remoteCompare exRemote ("master") ("feature")).1 =
      Res.ok [RepoCommit.mk (some 1), RepoCommit.mk (some 2)] ∧
    (GetBranchCommits exRemote ("org") ("repo") ("feature")).1 ≠
      Res.ok [commitOfData 1 ⟨"Fix bug", 101, [0]⟩,
        commitOfData 2 ⟨"Add test", 102, [1]⟩] := by
  refine ⟨rfl, rfl, ?_⟩
  intro hcon
  have h1 : (GetBranchCommits exRemote ("org") ("repo") ("feature")).1 =
      Res.ok [commitOfData 2 ⟨"Add test", 102, [1]⟩,
        commitOfData 1 ⟨"Fix bug", 101, [0]⟩] := rfl
  rw [hcon] at h1
  have h2 := congrArg (fun res => match res with
    | Res.ok l => l.map GCommit.sha
    | Res.err _ => []
    | Res.panicked _ => []) h1
  simp [commitOfData, GCommit.sha] at h2

/-- C2 amended: on a linear history where the source branch extends
master by the commits D (newest first), GetBranchCommits returns
exactly the set of commits reachable from the source branch but not
from master — but in branch traversal order from the head, newest
first (the reverse of oldest first): the first element is the most
recent unmerged commit, not the oldest one. -/
theorem c2_amended_newest_first (dx : Nat) (dm : String) (dt : Nat)
    (Dtl : List (Nat × String × Nat)) (mx : Nat) (mm : String) (mt : Nat)
    (Mtl : List (Nat × String × Nat)) (o r bn : String) (s : Remote)
    (hstore : s.commits = mkChain (((dx, dm, dt) :: Dtl) ++ (mx, mm, mt) :: Mtl))
    (hrefb : assoc (branchRefHeads ++ bn) s.refs = some dx)
    (hrefm : assoc (branchRefHeads ++ ("master")) s.refs = some mx)
    (hnodup : ((((dx, dm, dt) :: Dtl) ++ (mx, mm, mt) :: Mtl).map
      (fun e => e.1)).Nodup) :
    ∃ l s2, GetBranchCommits s o r bn = (Res.ok l, s2) ∧
      l.map GCommit.sha = (((dx, dm, dt) :: Dtl).map (fun e => some e.1)) ∧
      (chainFrom s.commits s.commits.length dx).filter
        (fun x => x ∉ chainFrom s.commits s.commits.length mx) =
        ((dx, dm, dt) :: Dtl).map (fun e => e.1) ∧
      (∀ g ∈ l, ∃ sh dta, g = commitOfData sh dta ∧
        assoc sh s.commits = some dta) := by
  have hchainb : chainFrom s.commits s.commits.length dx =
      ((dx, dm, dt) :: (Dtl ++ (mx, mm, mt) :: Mtl)).map (fun e => e.1) := by
    rw [hstore, mkChain_length]
    have hfix : ((dx, dm, dt) :: Dtl) ++ (mx, mm, mt) :: Mtl =
        [] ++ (dx, dm, dt) :: (Dtl ++ (mx, mm, mt) :: Mtl) := by simp
    rw [hfix]
    apply chainFrom_mkChain
    · rw [← hfix]; exact hnodup
    · rw [← hfix]
      simp [List.length_append]
  have hchainm : chainFrom s.commits s.commits.length mx =
      ((mx, mm, mt) :: Mtl).map (fun e => e.1) := by
    rw [hstore, mkChain_length]
    apply chainFrom_mkChain
    · exact hnodup
    · simp [List.length_append]
      omega
  have hdisj : ∀ a ∈ ((dx, dm, dt) :: Dtl).map (fun e => e.1),
      a ∉ ((mx, mm, mt) :: Mtl).map (fun e => e.1) := by
    intro a ha
    have hn2 := hnodup
    rw [List.map_append] at hn2
    exact (List.disjoint_of_nodup_append hn2) ha
  have hsplit : ((dx, dm, dt) :: (Dtl ++ (mx, mm, mt) :: Mtl)).map (fun e => e.1) =
      ((dx, dm, dt) :: Dtl).map (fun e => e.1) ++
        ((mx, mm, mt) :: Mtl).map (fun e => e.1) := by
    simp
  have hfilter : (chainFrom s.commits s.commits.length dx).filter
      (fun x => x ∉ chainFrom s.commits s.commits.length mx) =
      ((dx, dm, dt) :: Dtl).map (fun e => e.1) := by
    rw [hchainb, hchainm, hsplit]
    exact filter_disjoint_append _ _ hdisj
  have hDnodup : (((dx, dm, dt) :: Dtl).map (fun e => e.1)).Nodup := by
    rw [List.map_append] at hnodup
    exact List.Nodup.of_append_left hnodup
  obtain ⟨s2, evs, heq, hsc, _, _, _, _, _, _⟩ :=
    GetBranchCommits_unfold s o r bn dx mx hrefb hrefm
  have hdiffkeys : (((((chainFrom s.commits s.commits.length dx).filter
      (fun x => x ∉ chainFrom s.commits s.commits.length mx)).reverse).map
      (fun x => RepoCommit.mk (some x))).map RepoCommit.getSHA) =
      (((dx, dm, dt) :: Dtl).map (fun e => e.1)).reverse := by
    rw [map_mk_getSHA, hfilter]
  have hdiffnodup : (((((chainFrom s.commits s.commits.length dx).filter
      (fun x => x ∉ chainFrom s.commits s.commits.length mx)).reverse).map
      (fun x => RepoCommit.mk (some x))).map RepoCommit.getSHA).Nodup := by
    rw [hdiffkeys]
    exact List.nodup_reverse.mpr hDnodup
  have hlook : ∀ rc ∈ (chainFrom s.commits s.commits.length dx).map
      (fun x => RepoCommit.mk (some x)),
      rc.getSHA ∈ ((((chainFrom s.commits s.commits.length dx).filter
        (fun x => x ∉ chainFrom s.commits s.commits.length mx)).reverse).map
        (fun x => RepoCommit.mk (some x))).map RepoCommit.getSHA →
      ∃ dta, assoc rc.getSHA s2.commits = some dta ∧ dta.parents.length = 1 := by
    intro rc hrc hm
    obtain ⟨x, hx, hrc2⟩ := List.mem_map.mp hrc
    subst hrc2
    rw [hdiffkeys] at hm
    have hgs : (RepoCommit.mk (some x)).getSHA = x := rfl
    rw [hgs] at hm ⊢
    rw [List.mem_reverse] at hm
    obtain ⟨e, he, hex⟩ := List.mem_map.mp hm
    obtain ⟨pre, post, hD⟩ := List.append_of_mem he
    obtain ⟨e1, e2, e3⟩ := e
    have hex2 : e1 = x := hex
    subst hex2
    have hfull : ((dx, dm, dt) :: Dtl) ++ (mx, mm, mt) :: Mtl =
        pre ++ (e1, e2, e3) :: (post ++ (mx, mm, mt) :: Mtl) := by
      rw [hD]
      simp
    have hassoc := assoc_mkChain e1 e2 e3 pre (post ++ (mx, mm, mt) :: Mtl)
      (by rw [← hfull]; exact hnodup)
    rw [← hfull, ← hstore] at hassoc
    cases hpm : post ++ (mx, mm, mt) :: Mtl with
    | nil => simp at hpm
    | cons hd tl =>
      rw [hpm] at hassoc
      obtain ⟨h1, h2, h3⟩ := hd
      exact ⟨_, by rw [hsc]; exact hassoc, by simp⟩
  obtain ⟨l, evs3, houter, hshas, hdata, _⟩ := gbcOuter_ok o r _ hdiffnodup
    ((chainFrom s.commits s.commits.length dx).map
      (fun x => RepoCommit.mk (some x))) s2 [] hlook
  rw [heq, houter]
  refine ⟨l, _, rfl, ?_, hfilter, ?_⟩
  · rw [hshas]
    simp only [hdiffkeys]
    rw [hchainb, hsplit, List.filter_map]
    have hpred : ((fun rc => decide (rc.getSHA ∈
        ((((dx, dm, dt) :: Dtl).map (fun e => e.1)).reverse))) ∘
        (fun x => RepoCommit.mk (some x))) =
        (fun x : Nat => decide (x ∈ ((((dx, dm, dt) :: Dtl).map (fun e => e.1)).reverse))) := by
      funext x
      simp [Function.comp, RepoCommit.getSHA]
    rw [hpred]
    have hfl : (((((dx, dm, dt) :: Dtl).map (fun e => e.1)) ++
        (((mx, mm, mt) :: Mtl).map (fun e => e.1))).filter
        (fun x => decide (x ∈ ((((dx, dm, dt) :: Dtl).map (fun e => e.1)).reverse)))) =
        ((dx, dm, dt) :: Dtl).map (fun e => e.1) := by
      rw [List.filter_append]
      have h1 : ((((dx, dm, dt) :: Dtl).map (fun e => e.1)).filter
          (fun x => decide (x ∈ ((((dx, dm, dt) :: Dtl).map (fun e => e.1)).reverse)))) =
          ((dx, dm, dt) :: Dtl).map (fun e => e.1) := by
        apply List.filter_eq_self.mpr
        intro a ha
        simp only [List.mem_reverse, decide_eq_true_eq]
        exact ha
      have h2 : ((((mx, mm, mt) :: Mtl).map (fun e => e.1)).filter
          (fun x => decide (x ∈ ((((dx, dm, dt) :: Dtl).map (fun e => e.1)).reverse)))) = [] := by
        apply List.filter_eq_nil_iff.mpr
        intro a ha
        simp only [List.mem_reverse, decide_eq_true_eq]
        intro hc
        exact hdisj a hc ha
      rw [h1, h2, List.append_nil]
    rw [hfl, List.map_map]
    simp [Function.comp, RepoCommit.getSHA, List.map_map]
  · intro g hg
    obtain ⟨sh, dta, hgd, hdta⟩ := hdata g hg
    exact ⟨sh, dta, hgd, by rw [← hsc]; exact hdta⟩

/-- A remote whose history is the linear chain 2 -> 1 -> 0, with the
feature branch at 2 and master at 0, used to witness the amended C2. -/
def c2Remote : Remote :=
  { commits := mkChain [(2, ("Add test"), 102), (1, ("Fix bug"), 101), (0, ("root"), 100)],
    refs := [("refs/heads/master", 0), ("refs/heads/feature", 2)],
    conflicts := [], fresh := 3, log := [] }

/-- Witness for the amended C2 at a concrete three-commit history. -/
theorem c2_witness :
    ∃ l s2, GetBranchCommits c2Remote ("o") ("r") ("feature") = (Res.ok l, s2) ∧
      l.map GCommit.sha = [some 2, some 1] ∧
      (chainFrom c2Remote.commits c2Remote.commits.length 2).filter
        (fun x => x ∉ chainFrom c2Remote.commits c2Remote.commits.length 0) = [2, 1] ∧
      (∀ g ∈ l, ∃ sh dta, g = commitOfData sh dta ∧
        assoc sh c2Remote.commits = some dta) := by
  have h := c2_amended_newest_first 2 ("Add test") 102 [(1, ("Fix bug"), 101)] 0
    ("root") 100 [] ("o") ("r") ("feature") c2Remote rfl (by decide) (by decide) (by decide)
  simpa using h

/-! ## C7: every ref update targets the commit created just before it

`updOkFrom prev l` scans the event log `l` with `prev` the event logged
immediately before `l`: it holds when every `evUpdateRef _ sha` in the
log is immediately preceded by an `evCreateCommit _ _ _ sha` creating
exactly the commit the ref is pointed at. -/

def updOkFrom (prev : Option Event) : List Event → Bool
  | [] => true
  | e :: rest =>
    match e with
    | Event.evUpdateRef _ sha =>
      (match prev with
       | some (Event.evCreateCommit _ _ _ ns) => decide (ns = sha)
       | _ => false) && updOkFrom (some e) rest
    | _ => updOkFrom (some e) rest

/-- The last event of `l`, or `p` when `l` is empty. -/
def lastO (p : Option Event) : List Event → Option Event
  | [] => p
  | e :: rest => lastO (some e) rest

/-- A whole log is well formed when the scan succeeds from the start. -/
def noBareUpdate (l : List Event) : Bool := updOkFrom none l

/-- A log fragment whose updates are all justified internally, whatever
precedes it. -/
def updSafe (d : List Event) : Prop := ∀ p, updOkFrom p d = true

theorem updOkFrom_append : ∀ (l1 : List Event) (p : Option Event) (l2 : List Event),
    updOkFrom p (l1 ++ l2) = (updOkFrom p l1 && updOkFrom (lastO p l1) l2) := by
  intro l1
  induction l1 with
  | nil =>
    intro p l2
    simp [updOkFrom, lastO]
  | cons e rest ih =>
    intro p l2
    cases e <;> simp [updOkFrom, lastO, ih, Bool.and_assoc]

theorem updSafe_append {d1 d2 : List Event} (h1 : updSafe d1) (h2 : updSafe d2) :
    updSafe (d1 ++ d2) := by
  intro p
  rw [updOkFrom_append, h1 p, h2 (lastO p d1)]
  rfl

theorem updSafe_nil : updSafe [] := by
  intro p
  rfl

/-- `getCommit` logs a single read event. -/
theorem getCommit_updSafe (s : Remote) (o r : String) (sha : Nat) :
    ((getCommit s o r sha).2).log = s.log ++ [Event.evGetCommit sha] ∧
      updSafe [Event.evGetCommit sha] := by
  constructor
  · rw [getCommit, remoteGetCommit]
    cases h : assoc sha s.commits <;> simp [h]
  · intro p
    simp [updOkFrom]

/-- `createCommit` either rejects the request with no effect or creates
the fresh commit, logging the creation event with the returned SHA. -/
theorem createCommit_cases (s : Remote) (o r m : String) (tr : Option GTree)
    (par : GCommit) :
    (∃ e, createCommit s o r m tr par = (Res.err e, s)) ∨
    (∃ t p, createCommit s o r m tr par = (Res.ok s.fresh,
      { s with
        commits := (s.fresh, ⟨m, t, [p]⟩) :: s.commits
        fresh := s.fresh + 1
        log := s.log ++ [Event.evCreateCommit m t p s.fresh] })) := by
  rw [createCommit, remoteCreateCommit]
  cases htr : tr.bind GTree.sha with
  | none =>
    left
    cases hp : par.sha <;> exact ⟨_, rfl⟩
  | some t =>
    cases hp : par.sha with
    | none => exact Or.inl ⟨_, rfl⟩
    | some p => exact Or.inr ⟨t, p, rfl⟩

/-- `deleteBranch` logs a single delete event. -/
theorem deleteBranch_updSafe (s : Remote) (o r bn : String) :
    ((deleteBranch s o r bn).2).log =
      s.log ++ [Event.evDeleteRef (branchRefHeads ++ bn)] ∧
      updSafe [Event.evDeleteRef (branchRefHeads ++ bn)] := by
  refine ⟨(deleteBranch_log s o r bn).1, ?_⟩
  intro p
  simp [updOkFrom]

/-- `createSiblingCommit` logs either nothing (rejected creation) or a
creation immediately followed by the ref update to the created SHA. -/
theorem createSiblingCommit_updSafe (s : Remote) (o r bn : String)
    (hc cp : GCommit) :
    ∃ d, ((createSiblingCommit s o r bn hc cp).2).log = s.log ++ d ∧ updSafe d := by
  rw [createSiblingCommit]
  rcases createCommit_cases s o r ("temp") hc.getTree cp with ⟨e, hcc⟩ | ⟨t, p, hcc⟩
  · refine ⟨[], ?_, updSafe_nil⟩
    simp [hcc]
  · simp only [hcc]
    refine ⟨[Event.evCreateCommit ("temp") t p s.fresh,
      Event.evUpdateRef (branchRefHeads ++ bn) s.fresh], ?_, ?_⟩
    · rw [updateBranch, remoteUpdateRef]
      cases h : assoc (branchRefHeads ++ bn) s.refs <;> simp [h]
    · intro pp
      simp [updOkFrom]

/-- `merge` logs the merge call, then on success the read of the merge
commit; no ref-update event is issued by the client for a merge. -/
theorem merge_updSafe (s : Remote) (o r base : String) (headSha : Nat) :
    ∃ d, ((merge s o r base headSha).2).log = s.log ++ d ∧ updSafe d ∧
      ∀ e ∈ d, (e = Event.evMerge base headSha ∨ ∃ sh, e = Event.evGetCommit sh) := by
  rw [merge, remoteMerge]
  cases hb : assoc (branchRefHeads ++ base) s.refs with
  | none =>
    refine ⟨[Event.evMerge base headSha], by simp [hb], ?_, by simp⟩
    intro p
    simp [updOkFrom]
  | some baseSha =>
    by_cases hcf : (baseSha, headSha) ∈ s.conflicts
    · refine ⟨[Event.evMerge base headSha], by simp [hb, hcf], ?_, by simp⟩
      intro p
      simp [updOkFrom]
    · simp only [hb, hcf]
      refine ⟨[Event.evMerge base headSha, Event.evGetCommit s.fresh], ?_, ?_, by simp⟩
      · simp only [getCommit, remoteGetCommit]
        cases h2 : assoc s.fresh ((s.fresh,
            (⟨("merge"), s.fresh + 1, [baseSha, headSha]⟩ : CommitData)) :: s.commits) <;>
          simp [h2, hb, hcf]
      · intro p
        simp [updOkFrom]

/-- One replay step only ever updates the branch ref to the SHA of the
commit created by the immediately preceding creation call. -/
theorem cherryPickCommit_updSafe (s : Remote) (o r bn : String) (cc hc : GCommit) :
    ∃ d, ((cherryPickCommit s o r bn cc hc).2).log = s.log ++ d ∧ updSafe d := by
  rw [cherryPickCommit]
  cases hp0 : cc.parents[0]? with
  | none => exact ⟨[], by simp, updSafe_nil⟩
  | some cp =>
    dsimp only
    obtain ⟨d1, hd1, h1⟩ := createSiblingCommit_updSafe s o r bn hc cp
    cases hsc : createSiblingCommit s o r bn hc cp with
    | mk res1 s1 =>
      replace hd1 : s1.log = s.log ++ d1 := by rw [hsc] at hd1; exact hd1
      cases res1 with
      | err e => exact ⟨d1, by simpa using hd1, h1⟩
      | panicked m => exact ⟨d1, by simpa using hd1, h1⟩
      | ok u =>
        cases hcsha : cc.sha with
        | none => exact ⟨d1, by simpa using hd1, h1⟩
        | some cherrySha =>
          obtain ⟨d2, hd2, h2, _⟩ := merge_updSafe s1 o r bn cherrySha
          cases hm : merge s1 o r bn cherrySha with
          | mk res2 s2 =>
            replace hd2 : s2.log = s1.log ++ d2 := by rw [hm] at hd2; exact hd2
            cases res2 with
            | err e =>
              exact ⟨d1 ++ d2, by simp [hm, hd2, hd1], updSafe_append h1 h2⟩
            | panicked m =>
              exact ⟨d1 ++ d2, by simp [hm, hd2, hd1], updSafe_append h1 h2⟩
            | ok mc =>
              cases hhsha : hc.sha with
              | none =>
                exact ⟨d1 ++ d2, by simp [hm, hhsha, hd2, hd1], updSafe_append h1 h2⟩
              | some headSha =>
                obtain ⟨hd3, h3⟩ := getCommit_updSafe s2 o r headSha
                cases hg : getCommit s2 o r headSha with
                | mk res3 s3 =>
                  replace hd3 : s3.log = s2.log ++ [Event.evGetCommit headSha] := by
                    rw [hg] at hd3; exact hd3
                  cases res3 with
                  | err e =>
                    exact ⟨d1 ++ d2 ++ [Event.evGetCommit headSha],
                      by simp [hm, hhsha, hg, hd3, hd2, hd1],
                      updSafe_append (updSafe_append h1 h2) h3⟩
                  | panicked m =>
                    exact ⟨d1 ++ d2 ++ [Event.evGetCommit headSha],
                      by simp [hm, hhsha, hg, hd3, hd2, hd1],
                      updSafe_append (updSafe_append h1 h2) h3⟩
                  | ok uc =>
                    cases hmsg : cc.message with
                    | none =>
                      exact ⟨d1 ++ d2 ++ [Event.evGetCommit headSha],
                        by simp [hm, hhsha, hg, hmsg, hd3, hd2, hd1],
                        updSafe_append (updSafe_append h1 h2) h3⟩
                    | some msg =>
                      rcases createCommit_cases s3 o r msg mc.getTree uc with
                        ⟨e, hcc⟩ | ⟨t, p, hcc⟩
                      · refine ⟨d1 ++ d2 ++ [Event.evGetCommit headSha], ?_,
                          updSafe_append (updSafe_append h1 h2) h3⟩
                        simp [hm, hhsha, hg, hmsg, hcc, hd3, hd2, hd1]
                      · refine ⟨d1 ++ d2 ++ [Event.evGetCommit headSha] ++
                          [Event.evCreateCommit msg t p s3.fresh,
                           Event.evUpdateRef (branchRefHeads ++ bn) s3.fresh], ?_, ?_⟩
                        · simp only [hm, hhsha, hg, hmsg, hcc]
                          rw [updateBranch, remoteUpdateRef]
                          cases hub : assoc (branchRefHeads ++ bn) s3.refs <;>
                            simp [hub, hd3, hd2, hd1]
                        · refine updSafe_append (updSafe_append (updSafe_append h1 h2) h3) ?_
                          intro pp
                          simp [updOkFrom]

/-- The replay loop only ever repoints the branch ref at freshly created
commits, in every outcome (success, error with cleanup, panic). -/
theorem cherryPickLoop_updSafe (o r bn : String) :
    ∀ (commits : List GCommit) (s : Remote) (hc : GCommit),
      ∃ d, ((cherryPickLoop s o r bn commits hc).2).log = s.log ++ d ∧ updSafe d := by
  intro commits
  induction commits with
  | nil =>
    intro s hc
    exact ⟨[], by simp [cherryPickLoop], updSafe_nil⟩
  | cons c rest ih =>
    intro s hc
    rw [cherryPickLoop]
    obtain ⟨d1, hd1, h1⟩ := cherryPickCommit_updSafe s o r bn c hc
    cases hst : cherryPickCommit s o r bn c hc with
    | mk res1 s1 =>
      replace hd1 : s1.log = s.log ++ d1 := by rw [hst] at hd1; exact hd1
      cases res1 with
      | panicked m => exact ⟨d1, by simp [hst, hd1], h1⟩
      | err e =>
        obtain ⟨hdel, hdelsafe⟩ := deleteBranch_updSafe s1 o r bn
        refine ⟨d1 ++ [Event.evDeleteRef (branchRefHeads ++ bn)], ?_,
          updSafe_append h1 hdelsafe⟩
        simp [hst, hdel, hd1]
      | ok pr =>
        obtain ⟨tr, sha⟩ := pr
        obtain ⟨d2, hd2, h2⟩ := ih s1 (hc.setShaTree sha tr)
        refine ⟨d1 ++ d2, ?_, updSafe_append h1 h2⟩
        simp [hst, hd2, hd1]

/-- The full entry point preserves the pairing of ref updates with the
creation events immediately before them. -/
theorem CherryPickCommitsOnBranch_updSafe (s : Remote) (o r : String)
    (branch : GBranch) (commits : List GCommit) :
    ∃ d, ((CherryPickCommitsOnBranch s o r branch commits).2).log = s.log ++ d ∧
      updSafe d := by
  rw [CherryPickCommitsOnBranch]
  cases hn : branch.name with
  | none => exact ⟨[], by simp [hn], updSafe_nil⟩
  | some name =>
    cases hs0 : branch.commit.sha with
    | none => exact ⟨[], by simp [hn, hs0], updSafe_nil⟩
    | some headSha =>
      obtain ⟨hg1, hg1safe⟩ := getCommit_updSafe s o r headSha
      cases hg : getCommit s o r headSha with
      | mk res1 s1 =>
        replace hg1 : s1.log = s.log ++ [Event.evGetCommit headSha] := by
          rw [hg] at hg1; exact hg1
        cases res1 with
        | err e => exact ⟨[Event.evGetCommit headSha], by simp [hg, hg1], hg1safe⟩
        | panicked m => exact ⟨[Event.evGetCommit headSha], by simp [hg, hg1], hg1safe⟩
        | ok headCommit =>
          obtain ⟨d2, hd2, h2⟩ := cherryPickLoop_updSafe o r name commits s1 headCommit
          cases hl : cherryPickLoop s1 o r name commits headCommit with
          | mk res2 s2 =>
            replace hd2 : s2.log = s1.log ++ d2 := by rw [hl] at hd2; exact hd2
            cases res2 <;>
              exact ⟨[Event.evGetCommit headSha] ++ d2,
                by simp [hg, hl, hd2, hg1], updSafe_append hg1safe h2⟩

/-- C7: during replay, every update of the branch ref points it at the
SHA of the commit created by the immediately preceding primitive call:
if the starting log has every `evUpdateRef` immediately preceded by an
`evCreateCommit` of the same SHA (in particular an empty log), the log
after `CherryPickCommitsOnBranch` still does, on every path — the engine
never repoints the ref at an object that was not just created. -/
theorem c7_update_follows_create (s : Remote) (o r : String) (branch : GBranch)
    (commits : List GCommit) (hlog : noBareUpdate s.log = true) :
    noBareUpdate (((CherryPickCommitsOnBranch s o r branch commits).2).log) = true := by
  obtain ⟨d, hd, hsafe⟩ := CherryPickCommitsOnBranch_updSafe s o r branch commits
  rw [hd, noBareUpdate, updOkFrom_append]
  rw [noBareUpdate] at hlog
  rw [hlog, hsafe (lastO none s.log)]
  rfl

/-- Witness for C7: the shared two-commit replay scenario starts from an
empty log and ends with a log whose ref updates are all paired with the
creation immediately before them. -/
theorem c7_witness :
    noBareUpdate (((CherryPickCommitsOnBranch exRemote ("org") ("repo") exRelBranch
      [exPick1, exPick2]).2).log) = true :=
  c7_update_follows_create exRemote ("org") ("repo") exRelBranch [exPick1, exPick2]
    (by decide)

end Backport
